import Mathlib

/-!
Verification of the FootageOrganizer sorting pipeline.

This file gives a shallow embedding, in Lean 4, of the pure decision logic of
the three scripts `SORTING/organize_footage_links.py`,
`SORTING/create_metadata.py` and `SORTING/transfer_organized_footage.py`:

* drone-path classification (`_path_has_drone_segment`),
* the HDR/LOG colour-profile detector inside `extract_video_metadata`,
* the drone timestamp decision of `extract_times_for_drone_file` together
  with a model of the `zoneinfo` UTC-to-America/Montreal conversion,
* the filename/sidecar/mtime fallback chain of `extract_time_from_file`,
* the filename cleaner `remove_temporal_elements`,
* stabilized-file filtering in `list_media_files`,
* destination-collision resolution `unique_path`,
* the group colour assignment `assign_colors_to_groups`,
* the copy/verify/delete batch logic of `transfer_organized_footage.main`.

External effects (filesystem, subprocess calls to ffprobe/exiftool) are
replaced by explicit inputs: a file is a record of the fields the code reads,
and each external tool invocation becomes an `Option`-valued argument.
Python strings are modelled as Lean `String`/`List Char`; `str.lower` is
modelled as ASCII lowering (all vocabulary involved is ASCII).
-/

/-! ### Basic string helpers (models of Python primitives) -/

/-- Model of Python `str.lower` restricted to ASCII letters (every constant
the scripts compare against is ASCII). -/
def asciiLower (s : String) : String :=
  ⟨s.data.map Char.toLower⟩

/-- Does `l` start with `pre`?  List-level model of Python string slicing
comparisons such as `s.startswith(p)`. -/
def startsList (pre l : List Char) : Bool :=
  match pre, l with
  | [], _ => true
  | _ :: _, [] => false
  | p :: ps, c :: cs => p == c && startsList ps cs

/-- Does `needle` occur as a contiguous substring of `hay`?  Model of
Python `needle in hay` on strings. -/
def listInfix (needle hay : List Char) : Bool :=
  match hay with
  | [] => startsList needle []
  | _ :: cs => startsList needle hay || listInfix needle cs

/-- Does the list `l` end with `suf`?  Model of Python `s.endswith(suf)`. -/
def endsList (suf l : List Char) : Bool :=
  startsList suf.reverse l.reverse

/-! ### Drone-segment classification (`organize_footage_links.py` lines 63-68
and 349-356) -/

/-- Folder names that mark a file as drone footage
(`DRONE_FOLDERS` in `organize_footage_links.py`). -/
def DRONE_FOLDERS : List String :=
  ["drone", "dji", "mini4", "mavic"]

/-- Model of `_path_has_drone_segment`: some component of the path,
lower-cased, is literally a member of `DRONE_FOLDERS`.  The path is given as
its list of components (`Path.parts`). -/
def pathHasDroneSegment (parts : List String) : Bool :=
  parts.any (fun part => DRONE_FOLDERS.contains (asciiLower part))

/-- The classification rule as the claim words it: some folder segment
begins, case-insensitively, with one of the five listed strings
(including `avata`).  Written from the claim for comparison with
`pathHasDroneSegment`, which is translated from the code. -/
def claimDroneSegment (parts : List String) : Bool :=
  parts.any (fun part =>
    (["drone", "dji", "mini4", "mavic", "avata"] : List String).any
      (fun w => startsList w.data (asciiLower part).data))

/-- C4 counterexample: a file under a folder named `avata`, and one under a
folder named `drone2`, satisfy the claim's begins-with-one-of-five rule but
are classified as non-drone by the code, so the claimed iff fails. -/
theorem C4_drone_prefix_counterexample :
    claimDroneSegment ["Footage_raw", "avata", "clip.mp4"] = true ∧
    pathHasDroneSegment ["Footage_raw", "avata", "clip.mp4"] = false ∧
    claimDroneSegment ["Footage_raw", "drone2", "x.mp4"] = true ∧
    pathHasDroneSegment ["Footage_raw", "drone2", "x.mp4"] = false := by
  decide

/-- C4 (amended): a path takes the drone branch iff some folder segment
equals, case-insensitively, one of `drone`, `dji`, `mini4`, `mavic`
(exact match, and `avata` is not in the list); a path with no such segment
is always treated as non-drone. -/
theorem C4_drone_segment_amended (parts : List String) :
    pathHasDroneSegment parts = true ↔
      ∃ part ∈ parts, asciiLower part ∈ DRONE_FOLDERS := by
  simp [pathHasDroneSegment, List.any_eq_true]

/-- Witness for C4: the amended rule applied at a concrete path. -/
theorem C4_drone_segment_amended_witness :
    pathHasDroneSegment ["Footage_raw", "DRONE", "DJI_0012.MP4"] = true :=
  (C4_drone_segment_amended _).mpr ⟨"DRONE", by decide, by decide⟩

/-! ### HDR/LOG colour-profile detection
(`extract_video_metadata`, `organize_footage_links.py` lines 575-689) -/

/-- The colour-related attributes of the selected video stream, each as
ffprobe reported it (`none` models an absent key). -/
structure StreamColor where
  color_space : Option String
  color_transfer : Option String
  color_primaries : Option String
  pix_fmt : Option String

/-- Python truthiness of an optional string: `None` and `""` are falsy. -/
def pyTruthy (o : Option String) : Option String :=
  match o with
  | some s => if s = "" then none else some s
  | none => none

/-- Lower-case `v` and test whether any of the (already lower-case) keywords
occurs in it; model of `any(k in v.lower() for k in keys)`. -/
def lowerContainsAny (v : String) (keys : List String) : Bool :=
  keys.any (fun k => listInfix k.data (asciiLower v).data)

/-- Transfer-function keywords denoting log or HDR curves. -/
def hdrTransferKeys : List String := ["log", "pq", "smpte2084", "hlg", "arib-std-b67"]

/-- Pixel-format fragments denoting a 10-bit-or-deeper sample format. -/
def hdrPixKeys : List String := ["10le", "12le", "16le", "p010", "p016"]

/-- Result of the HDR/Log detection block of `extract_video_metadata`. -/
structure HdrDetection where
  is_hdr_log : Bool
  hdr_indicators : List String
  is_log : String
  hdr_tag : String

/-- One attribute block of the detector: `if attr: if any(kw in attr.lower()):
is_hdr_log = True; hdr_indicators.append(label + attr)`. -/
def hdrStep (att : Option String) (keys : List String) (label : String)
    (st : Bool × List String) : Bool × List String :=
  match pyTruthy att with
  | some v =>
    if lowerContainsAny v keys then (true, st.2 ++ [label ++ v]) else st
  | none => st

/-- The flag/justification state after the four attribute blocks of the
detector, in source order: transfer, colour space, primaries, pixel format. -/
def hdrState (vs : StreamColor) : Bool × List String :=
  hdrStep vs.pix_fmt hdrPixKeys "10+ bit: "
    (hdrStep vs.color_primaries ["bt2020", "rec2020"] "primaries: "
      (hdrStep vs.color_space ["bt2020", "rec2020"] "colorspace: "
        (hdrStep vs.color_transfer hdrTransferKeys "transfer: " (false, []))))

/-- Direct translation of the `is_hdr_log` / `hdr_indicators` accumulation in
`extract_video_metadata`: the four conditions are evaluated in order, each
match sets the flag and appends its justification string. -/
def detectHdr (vs : StreamColor) : HdrDetection :=
  let st4 := hdrState vs
  if st4.1 then
    ⟨true, st4.2,
      "YES - HDR/Log detected (" ++ String.intercalate ", " st4.2 ++ ")",
      "HDR/LOG"⟩
  else
    ⟨false, st4.2, "No (Standard SDR)", "SDR"⟩

/-- The boolean signal carried by one attribute block. -/
def sigOf (att : Option String) (keys : List String) : Bool :=
  match pyTruthy att with
  | some v => lowerContainsAny v keys
  | none => false

theorem hdrStep_fst (att : Option String) (keys : List String) (label : String)
    (st : Bool × List String) :
    (hdrStep att keys label st).1 = (st.1 || sigOf att keys) := by
  unfold hdrStep sigOf
  rcases pyTruthy att with _ | v
  · simp
  · by_cases h : lowerContainsAny v keys = true <;> simp [h]

theorem hdrStep_mem (att : Option String) (keys : List String) (label : String)
    (st : Bool × List String) (x : String) (hx : x ∈ st.2) :
    x ∈ (hdrStep att keys label st).2 := by
  unfold hdrStep
  rcases pyTruthy att with _ | v
  · exact hx
  · by_cases h : lowerContainsAny v keys = true <;> simp [h, hx]

theorem hdrStep_hit (att : Option String) (keys : List String) (label : String)
    (st : Bool × List String) (v : String) (hv : pyTruthy att = some v)
    (h : lowerContainsAny v keys = true) :
    (label ++ v) ∈ (hdrStep att keys label st).2 := by
  unfold hdrStep
  rw [hv]
  simp [h]

theorem hdrStep_miss (att : Option String) (keys : List String) (label : String)
    (st : Bool × List String) (h : sigOf att keys = false) :
    hdrStep att keys label st = st := by
  unfold hdrStep
  unfold sigOf at h
  rcases hv : pyTruthy att with _ | v
  · rfl
  · rw [hv] at h
    simp at h
    simp [h]

/-- Signal 1 of the detector: the transfer function contains a log/PQ/HLG
keyword. -/
def sigTransfer (vs : StreamColor) : Bool :=
  sigOf vs.color_transfer hdrTransferKeys

/-- Signal 2: the colour space indicates BT.2020. -/
def sigSpace (vs : StreamColor) : Bool :=
  sigOf vs.color_space ["bt2020", "rec2020"]

/-- Signal 3: the colour primaries indicate BT.2020. -/
def sigPrimaries (vs : StreamColor) : Bool :=
  sigOf vs.color_primaries ["bt2020", "rec2020"]

/-- Signal 4: the pixel format indicates 10-bit-or-higher depth. -/
def sigPix (vs : StreamColor) : Bool :=
  sigOf vs.pix_fmt hdrPixKeys

theorem hdrState_fst (vs : StreamColor) :
    (hdrState vs).1 = (sigTransfer vs || sigSpace vs || sigPrimaries vs || sigPix vs) := by
  simp [hdrState, hdrStep_fst, sigTransfer, sigSpace, sigPrimaries, sigPix,
    Bool.or_assoc]

theorem detectHdr_indicators (vs : StreamColor) :
    (detectHdr vs).hdr_indicators = (hdrState vs).2 := by
  simp only [detectHdr]
  split <;> rfl

theorem detectHdr_flag (vs : StreamColor) :
    (detectHdr vs).is_hdr_log = (hdrState vs).1 := by
  simp only [detectHdr]
  split <;> simp_all

/-- C6: the clip is classified HDR/LOG iff at least one of the four signals
holds; every matching signal contributes its justification string; and when
no signal holds (in particular when the attributes are absent) the tag is
`SDR` with no justification, the detector returning normally. -/
theorem C6_hdr_detection (vs : StreamColor) :
    ((detectHdr vs).is_hdr_log
        = (sigTransfer vs || sigSpace vs || sigPrimaries vs || sigPix vs)) ∧
    (∀ t, pyTruthy vs.color_transfer = some t →
      lowerContainsAny t hdrTransferKeys = true →
      ("transfer: " ++ t) ∈ (detectHdr vs).hdr_indicators) ∧
    (∀ s, pyTruthy vs.color_space = some s →
      lowerContainsAny s ["bt2020", "rec2020"] = true →
      ("colorspace: " ++ s) ∈ (detectHdr vs).hdr_indicators) ∧
    (∀ p, pyTruthy vs.color_primaries = some p →
      lowerContainsAny p ["bt2020", "rec2020"] = true →
      ("primaries: " ++ p) ∈ (detectHdr vs).hdr_indicators) ∧
    (∀ f, pyTruthy vs.pix_fmt = some f →
      lowerContainsAny f hdrPixKeys = true →
      ("10+ bit: " ++ f) ∈ (detectHdr vs).hdr_indicators) ∧
    ((sigTransfer vs || sigSpace vs || sigPrimaries vs || sigPix vs) = false →
      (detectHdr vs).hdr_tag = "SDR" ∧ (detectHdr vs).hdr_indicators = []) := by
  refine ⟨by rw [detectHdr_flag, hdrState_fst], ?_, ?_, ?_, ?_, ?_⟩
  · intro t hv h
    rw [detectHdr_indicators]
    unfold hdrState
    exact hdrStep_mem _ _ _ _ _ (hdrStep_mem _ _ _ _ _ (hdrStep_mem _ _ _ _ _
      (hdrStep_hit _ _ _ _ t hv h)))
  · intro s hv h
    rw [detectHdr_indicators]
    unfold hdrState
    exact hdrStep_mem _ _ _ _ _ (hdrStep_mem _ _ _ _ _
      (hdrStep_hit _ _ _ _ s hv h))
  · intro p hv h
    rw [detectHdr_indicators]
    unfold hdrState
    exact hdrStep_mem _ _ _ _ _ (hdrStep_hit _ _ _ _ p hv h)
  · intro f hv h
    rw [detectHdr_indicators]
    unfold hdrState
    exact hdrStep_hit _ _ _ _ f hv h
  · intro h
    have h1 : sigTransfer vs = false := by
      cases hb : sigTransfer vs
      · rfl
      · rw [hb] at h
        simp at h
    have h2 : sigSpace vs = false := by
      cases hb : sigSpace vs
      · rfl
      · rw [hb] at h
        simp at h
    have h3 : sigPrimaries vs = false := by
      cases hb : sigPrimaries vs
      · rfl
      · rw [hb] at h
        simp at h
    have h4 : sigPix vs = false := by
      cases hb : sigPix vs
      · rfl
      · rw [hb] at h
        simp at h
    have hst : hdrState vs = (false, []) := by
      unfold hdrState
      rw [hdrStep_miss _ _ _ _ h4, hdrStep_miss _ _ _ _ h3,
        hdrStep_miss _ _ _ _ h2, hdrStep_miss _ _ _ _ h1]
    constructor
    · simp only [detectHdr]
      split
      · rename_i hb
        rw [hst] at hb
        simp at hb
      · rfl
    · rw [detectHdr_indicators, hst]

/-- Witness for C6: a 10-bit HLG BT.2020 stream is detected as HDR/LOG with
both justifications present; an all-absent stream is SDR. -/
theorem C6_hdr_detection_witness :
    ("transfer: arib-std-b67") ∈
      (detectHdr ⟨some "bt2020nc", some "arib-std-b67", none, some "yuv420p10le"⟩).hdr_indicators ∧
    (detectHdr ⟨none, none, none, none⟩).hdr_tag = "SDR" :=
  ⟨(C6_hdr_detection ⟨some "bt2020nc", some "arib-std-b67", none, some "yuv420p10le"⟩).2.1
      "arib-std-b67" (by decide) (by decide),
   ((C6_hdr_detection ⟨none, none, none, none⟩).2.2.2.2.2 (by decide)).1⟩

/-! ### Destination-collision resolution (`unique_path`,
`organize_footage_links.py` lines 1220-1232) -/

/-- Little-endian decimal digits of a natural number. -/
def decDigits (n : Nat) : List Char :=
  if h : n < 10 then [Nat.digitChar n]
  else Nat.digitChar (n % 10) :: decDigits (n / 10)
termination_by n
decreasing_by
  exact Nat.div_lt_self (by omega) (by omega)

/-- Decimal representation of a natural number (model of Python `str(i)`). -/
def decRepr (n : Nat) : String :=
  ⟨(decDigits n).reverse⟩

/-- Model of the Python format `f"_\x7bi:03d\x7d"` payload: the decimal digits
of `i`, zero-padded on the left to width 3. -/
def pad3 (i : Nat) : String :=
  let s := decRepr i
  if s.length < 3 then ⟨List.replicate (3 - s.length) '0' ++ s.data⟩ else s

/-- Numeric value of a decimal digit character. -/
def digitVal (c : Char) : Nat := c.toNat - 48

/-- Value of a big-endian decimal digit string. -/
def valBE (l : List Char) : Nat :=
  l.foldl (fun acc c => acc * 10 + digitVal c) 0

theorem digitVal_digitChar (n : Nat) (h : n < 10) :
    digitVal (Nat.digitChar n) = n := by
  interval_cases n <;> rfl

theorem foldl_decDigits (n : Nat) : ∀ acc : Nat,
    (decDigits n).reverse.foldl (fun acc c => acc * 10 + digitVal c) acc
      = acc * 10 ^ (decDigits n).length + n := by
  induction n using Nat.strong_induction_on with
  | _ n ih =>
    intro acc
    by_cases h : n < 10
    · rw [decDigits]
      simp [h, digitVal_digitChar n h]
    · rw [decDigits]
      simp only [h, dite_false]
      have hd : n / 10 < n := Nat.div_lt_self (by omega) (by omega)
      have := ih (n / 10) hd acc
      simp only [List.reverse_cons, List.foldl_append, this, List.length_cons,
        List.foldl_cons, List.foldl_nil]
      rw [digitVal_digitChar (n % 10) (Nat.mod_lt n (by omega))]
      have hpow : 10 ^ ((decDigits (n / 10)).length + 1)
          = 10 ^ (decDigits (n / 10)).length * 10 := pow_succ 10 _
      have hnm : n / 10 * 10 + n % 10 = n := by omega
      calc (acc * 10 ^ (decDigits (n / 10)).length + n / 10) * 10 + n % 10
          = acc * (10 ^ (decDigits (n / 10)).length * 10) + (n / 10 * 10 + n % 10) := by ring
        _ = acc * 10 ^ ((decDigits (n / 10)).length + 1) + n := by rw [hpow, hnm]

theorem valBE_decRepr (n : Nat) : valBE (decRepr n).data = n := by
  have := foldl_decDigits n 0
  simpa [valBE, decRepr] using this

theorem foldl_zeros (k : Nat) :
    (List.replicate k '0').foldl (fun acc c => acc * 10 + digitVal c) 0 = 0 := by
  induction k with
  | zero => rfl
  | succ k ih =>
    rw [List.replicate_succ]
    simpa [digitVal] using ih

theorem valBE_pad3 (i : Nat) : valBE (pad3 i).data = i := by
  unfold pad3
  by_cases h : (decRepr i).length < 3
  · simp only [h, if_true, valBE, List.foldl_append]
    rw [show (List.replicate (3 - (decRepr i).length) '0').foldl
        (fun acc c => acc * 10 + digitVal c) 0 = 0 from foldl_zeros _]
    exact valBE_decRepr i
  · simp only [h, if_false]
    exact valBE_decRepr i

theorem pad3_inj {i j : Nat} (h : pad3 i = pad3 j) : i = j := by
  have := congrArg (fun s => valBE s.data) h
  simpa [valBE_pad3] using this

/-- The suffixed collision candidate `f"{stem}_{i:03d}{suffix}"`. -/
def candidate (stem sfx : String) (i : Nat) : String :=
  stem ++ "_" ++ pad3 i ++ sfx

theorem candidate_inj (stem sfx : String) {i j : Nat}
    (h : candidate stem sfx i = candidate stem sfx j) : i = j := by
  apply pad3_inj
  unfold candidate at h
  have hd := congrArg String.data h
  simp only [String.data_append, List.append_assoc, List.singleton_append] at hd
  have h1 := List.append_cancel_left hd
  injection h1 with _ h2
  have h3 := List.append_cancel_right h2
  exact congrArg String.mk h3

/-- Bounded search for the first index at which `isFree` holds; models the
unbounded `while True` loop of `unique_path`, which a sufficiency proof below
shows never needs more than `|existing| + 1` probes. -/
def searchFrom (isFree : Nat → Bool) : Nat → Nat → Option Nat
  | 0, _ => none
  | fuel + 1, i => if isFree i then some i else searchFrom isFree fuel (i + 1)

theorem searchFrom_spec (isFree : Nat → Bool) :
    ∀ fuel i j, searchFrom isFree fuel i = some j →
      isFree j = true ∧ i ≤ j ∧ (∀ k, i ≤ k → k < j → isFree k = false) := by
  intro fuel
  induction fuel with
  | zero => intro i j h; simp [searchFrom] at h
  | succ fuel ih =>
    intro i j h
    rw [searchFrom] at h
    by_cases hi : isFree i = true
    · rw [if_pos hi] at h
      obtain rfl : i = j := by simpa using h
      exact ⟨hi, le_refl _, fun k hk1 hk2 => absurd hk1 (by omega)⟩
    · rw [if_neg hi] at h
      obtain ⟨hj, hij, hall⟩ := ih (i + 1) j h
      refine ⟨hj, by omega, fun k hk1 hk2 => ?_⟩
      by_cases hk : k = i
      · subst hk; simpa using hi
      · exact hall k (by omega) hk2

theorem searchFrom_succeeds (isFree : Nat → Bool) :
    ∀ fuel i, (∃ j, i ≤ j ∧ j < i + fuel ∧ isFree j = true) →
      ∃ j, searchFrom isFree fuel i = some j := by
  intro fuel
  induction fuel with
  | zero => intro i ⟨j, h1, h2, _⟩; omega
  | succ fuel ih =>
    intro i ⟨j, h1, h2, h3⟩
    rw [searchFrom]
    by_cases hi : isFree i = true
    · exact ⟨i, by rw [if_pos hi]⟩
    · rw [if_neg hi]
      apply ih (i + 1)
      refine ⟨j, ?_, by omega, h3⟩
      rcases Nat.eq_or_lt_of_le h1 with rfl | h
      · exact absurd h3 hi
      · omega

/-- Model of `unique_path`: the filesystem is abstracted to the list
`existing` of paths that already exist (the candidate's `.exists()` check
becomes membership), and path concatenation to string concatenation of the
stem and the extension. -/
def uniquePath (stem sfx : String) (existing : List String) : String :=
  if stem ++ sfx ∈ existing then
    match searchFrom (fun i => !(existing.contains (candidate stem sfx i)))
        (existing.length + 1) 1 with
    | some i => candidate stem sfx i
    | none => stem ++ sfx
  else stem ++ sfx

theorem exists_free_candidate (stem sfx : String) (existing : List String) :
    ∃ j, 1 ≤ j ∧ j < 1 + (existing.length + 1) ∧
      candidate stem sfx j ∉ existing := by
  by_contra hall
  push_neg at hall
  have hsub : ∀ k ∈ List.range (existing.length + 1),
      candidate stem sfx (k + 1) ∈ existing := by
    intro k hk
    rw [List.mem_range] at hk
    exact hall (k + 1) (by omega) (by omega)
  set cands := (List.range (existing.length + 1)).map
    (fun k => candidate stem sfx (k + 1)) with hcands
  have hnd : cands.Nodup := by
    apply List.Nodup.map _ (List.nodup_range _)
    intro a b hab
    have := candidate_inj stem sfx hab
    omega
  have hsubset : ∀ x ∈ cands, x ∈ existing := by
    intro x hx
    rw [hcands, List.mem_map] at hx
    obtain ⟨k, hk, rfl⟩ := hx
    exact hsub k hk
  have hcard1 : cands.toFinset.card = existing.length + 1 := by
    rw [List.toFinset_card_of_nodup hnd, hcands, List.length_map,
      List.length_range]
  have hcard2 : cands.toFinset.card ≤ existing.length := by
    calc cands.toFinset.card ≤ existing.toFinset.card := by
          apply Finset.card_le_card
          intro x hx
          rw [List.mem_toFinset] at hx
          rw [List.mem_toFinset]
          exact hsubset x hx
      _ ≤ existing.length := List.toFinset_card_le existing
  omega

theorem uniquePath_found (stem sfx : String) (existing : List String)
    (hmem : stem ++ sfx ∈ existing) :
    ∃ i, 1 ≤ i ∧ uniquePath stem sfx existing = candidate stem sfx i ∧
      candidate stem sfx i ∉ existing ∧
      ∀ j, 1 ≤ j → j < i → candidate stem sfx j ∈ existing := by
  have hfree : ∀ i, ((!(existing.contains (candidate stem sfx i))) = true)
      ↔ candidate stem sfx i ∉ existing := by
    intro i
    simp [List.elem_iff]
  obtain ⟨j0, hj1, hj2, hj3⟩ := exists_free_candidate stem sfx existing
  obtain ⟨i, hi⟩ := searchFrom_succeeds
    (fun i => !(existing.contains (candidate stem sfx i)))
    (existing.length + 1) 1 ⟨j0, hj1, hj2, (hfree j0).mpr hj3⟩
  obtain ⟨hif, hi1, hleast⟩ := searchFrom_spec _ _ _ _ hi
  refine ⟨i, hi1, ?_, (hfree i).mp hif, ?_⟩
  · unfold uniquePath
    rw [if_pos hmem, hi]
  · intro j h1 h2
    have hj : (!(existing.contains (candidate stem sfx j))) = false :=
      hleast j h1 h2
    simpa [List.elem_iff] using hj

/-- C8: collision resolution returns the base path itself when it does not
already exist; otherwise the candidate with the smallest numeric suffix 1, 2,
... whose rendering `_001, _002, ...` does not exist; the returned path never
names an existing path; and the result depends on the existing-path list
only through membership, hence is a deterministic function of the base path
and the existing-path set. -/
theorem C8_unique_path (stem sfx : String) (existing : List String) :
    (stem ++ sfx ∉ existing → uniquePath stem sfx existing = stem ++ sfx) ∧
    (stem ++ sfx ∈ existing →
      ∃ i, 1 ≤ i ∧ uniquePath stem sfx existing = candidate stem sfx i ∧
        candidate stem sfx i ∉ existing ∧
        ∀ j, 1 ≤ j → j < i → candidate stem sfx j ∈ existing) ∧
    uniquePath stem sfx existing ∉ existing ∧
    (∀ existing' : List String, (∀ x, x ∈ existing ↔ x ∈ existing') →
      uniquePath stem sfx existing = uniquePath stem sfx existing') := by
  refine ⟨?_, uniquePath_found stem sfx existing, ?_, ?_⟩
  · intro hmem
    unfold uniquePath
    rw [if_neg hmem]
  · by_cases hmem : stem ++ sfx ∈ existing
    · obtain ⟨i, _, heq, hni, _⟩ := uniquePath_found stem sfx existing hmem
      rw [heq]
      exact hni
    · unfold uniquePath
      rw [if_neg hmem]
      exact hmem
  · intro existing' hiff
    by_cases hmem : stem ++ sfx ∈ existing
    · have hmem' : stem ++ sfx ∈ existing' := (hiff _).mp hmem
      obtain ⟨i, hi1, heq, hni, hbelow⟩ := uniquePath_found stem sfx existing hmem
      obtain ⟨i', hi1', heq', hni', hbelow'⟩ :=
        uniquePath_found stem sfx existing' hmem'
      have hii : i = i' := by
        rcases Nat.lt_trichotomy i i' with hlt | heqi | hgt
        · exact absurd ((hiff _).mpr (hbelow' i hi1 hlt)) hni
        · exact heqi
        · exact absurd ((hiff _).mp (hbelow i' hi1' hgt)) hni'
      rw [heq, heq', hii]
    · have hmem' : stem ++ sfx ∉ existing' := fun hm => hmem ((hiff _).mpr hm)
      unfold uniquePath
      rw [if_neg hmem, if_neg hmem']

/-- Witness for C8: with `a.mp4` and `a_001.mp4` taken, the next free
suffixed candidate `a_002.mp4` is chosen, and it was not taken. -/
theorem C8_unique_path_witness :
    uniquePath "a" ".mp4" ["a.mp4", "a_001.mp4"] ∉
      (["a.mp4", "a_001.mp4"] : List String) :=
  (C8_unique_path "a" ".mp4" ["a.mp4", "a_001.mp4"]).2.2.1

/-! ### Drone timestamp decision (`extract_times_for_drone_file`,
`organize_footage_links.py` lines 723-800)

Naive datetimes are modelled as `Int` seconds since the Unix epoch read on a
naive clock.  The `zoneinfo` conversion for the default configured zone
`America/Montreal` is modelled from the spec and the tz database rules the
standard library applies: EST is UTC-5, EDT is UTC-4, and DST runs from the
second Sunday of March at 02:00 EST (07:00 UTC) to the first Sunday of
November at 02:00 EDT (06:00 UTC).  The repository's own unit test
`test_montreal_timezone` pins exactly these two offsets. -/

/-- Days since 1970-01-01 of the civil date `(y, m, d)`
(Howard Hinnant's `days_from_civil`). -/
def daysFromCivil (y m d : Int) : Int :=
  let y2 := if m ≤ 2 then y - 1 else y
  let era := Int.fdiv y2 400
  let yoe := y2 - era * 400
  let mp := if m > 2 then m - 3 else m + 9
  let doy := Int.fdiv (153 * mp + 2) 5 + d - 1
  let doe := yoe * 365 + Int.fdiv yoe 4 - Int.fdiv yoe 100 + doy
  era * 146097 + doe - 719468

/-- The civil year containing the day `z` (days since 1970-01-01)
(from Howard Hinnant's `civil_from_days`). -/
def civilYearOfDays (z : Int) : Int :=
  let z2 := z + 719468
  let era := Int.fdiv z2 146097
  let doe := z2 - era * 146097
  let yoe := Int.fdiv
    (doe - Int.fdiv doe 1460 + Int.fdiv doe 36524 - Int.fdiv doe 146096) 365
  let y := yoe + era * 400
  let doy := doe - (365 * yoe + Int.fdiv yoe 4 - Int.fdiv yoe 100)
  let mp := Int.fdiv (5 * doy + 2) 153
  let m := mp + (if mp < 10 then 3 else -9)
  y + (if m ≤ 2 then 1 else 0)

/-- Day of week of day number `z`, with Sunday = 0 (1970-01-01 was a
Thursday, hence the +4). -/
def dayOfWeek (z : Int) : Int :=
  Int.emod (z + 4) 7

/-- Day number of the second Sunday of March of year `y`. -/
def dstStartDays (y : Int) : Int :=
  let d1 := daysFromCivil y 3 1
  d1 + Int.emod (7 - dayOfWeek d1) 7 + 7

/-- Day number of the first Sunday of November of year `y`. -/
def dstEndDays (y : Int) : Int :=
  let d1 := daysFromCivil y 11 1
  d1 + Int.emod (7 - dayOfWeek d1) 7

/-- Modelled from the spec: is the UTC instant `u` inside the
America/Montreal daylight-saving window of its year?  (DST starts the second
Sunday of March at 07:00 UTC and ends the first Sunday of November at
06:00 UTC.) -/
def isMontrealDST (u : Int) : Bool :=
  let y := civilYearOfDays (Int.fdiv u 86400)
  decide (dstStartDays y * 86400 + 7 * 3600 ≤ u) &&
    decide (u < dstEndDays y * 86400 + 6 * 3600)

/-- Modelled from the spec: `zoneinfo` conversion of a UTC instant to
America/Montreal civil time, as naive local seconds. -/
def utcToMontreal (u : Int) : Int :=
  u + (if isMontrealDST u then -4 else -5) * 3600

/-- Output of the drone time decision: the chosen naive local timestamp, the
UTC reference it records, and the provenance string. -/
structure DroneTimeResult where
  local_secs : Int
  utc_ref : Int
  time_source : String

/-- The decision core of `extract_times_for_drone_file`, once ffprobe or
exiftool has produced a creation timestamp: `metaNaive` is the container
metadata instant read naively (its clock fields as seconds), `mtime` the
file modification time, `src` the extraction source tag.  Within 5 minutes
of the mtime the metadata is deemed local and the mtime itself is used;
otherwise the metadata is treated as true UTC and converted. -/
def droneTimeDecision (metaNaive mtime : Int) (src : String) : DroneTimeResult :=
  if (metaNaive - mtime).natAbs ≤ 5 * 60 then
    ⟨mtime, mtime, "mtime (metadata appears to be local time)"⟩
  else
    ⟨utcToMontreal metaNaive, metaNaive, "converted UTC from " ++ src⟩

/-- C1: if container metadata and mtime differ by at most 300 seconds the
resolver returns the mtime verbatim with the metadata-appears-local
provenance; if they differ by more, it returns the metadata instant
converted from UTC to America/Montreal with the converted-UTC provenance;
and the conversion respects DST: the same UTC clock time (12:00) is moved by
-4 hours on 2025-07-15 but by -5 hours on 2025-01-15, one hour apart. -/
theorem C1_drone_time_decision (metaNaive mtime : Int) (src : String) :
    ((metaNaive - mtime).natAbs ≤ 300 →
      droneTimeDecision metaNaive mtime src
        = ⟨mtime, mtime, "mtime (metadata appears to be local time)"⟩) ∧
    (300 < (metaNaive - mtime).natAbs →
      droneTimeDecision metaNaive mtime src
        = ⟨utcToMontreal metaNaive, metaNaive, "converted UTC from " ++ src⟩) ∧
    (utcToMontreal (daysFromCivil 2025 7 15 * 86400 + 12 * 3600)
        - (daysFromCivil 2025 7 15 * 86400 + 12 * 3600) = -(4 * 3600)) ∧
    (utcToMontreal (daysFromCivil 2025 1 15 * 86400 + 12 * 3600)
        - (daysFromCivil 2025 1 15 * 86400 + 12 * 3600) = -(5 * 3600)) := by
  refine ⟨?_, ?_, by decide, by decide⟩
  · intro h
    unfold droneTimeDecision
    rw [if_pos (by omega)]
  · intro h
    unfold droneTimeDecision
    rw [if_neg (by omega)]

/-- Witness for C1: a metadata time 10 seconds from the mtime resolves to the
mtime; a metadata time 3 hours (10800 s) from the mtime on 2025-07-15
resolves to the DST-converted local time, 4 hours earlier. -/
theorem C1_drone_time_decision_witness :
    (droneTimeDecision 1010 1000 "format.tags.creation_time").local_secs = 1000 ∧
    (droneTimeDecision (daysFromCivil 2025 7 15 * 86400 + 12 * 3600)
        (daysFromCivil 2025 7 15 * 86400 + 12 * 3600 + 10800)
        "format.tags.creation_time").local_secs
      = daysFromCivil 2025 7 15 * 86400 + 8 * 3600 :=
  ⟨by rw [(C1_drone_time_decision 1010 1000 "format.tags.creation_time").1
      (by decide)],
   by rw [(C1_drone_time_decision _ _ "format.tags.creation_time").2.1
      (by decide)]
      decide⟩

/-! ### Regex-shape machinery

The scripts use `re.search` and `re.sub` only with fixed-length patterns
(runs of digits and literal separators).  Such a pattern is modelled as a
list of character predicates; `re.sub(pat, '', s)` deletes non-overlapping
matches scanning from the left, and `re.search` finds the leftmost match. -/

/-- Try to match `shape` at the head of `l`; on success return the rest. -/
def matchShape : List (Char → Bool) → List Char → Option (List Char)
  | [], rest => some rest
  | _ :: _, [] => none
  | p :: ps, c :: cs => if p c then matchShape ps cs else none

/-- Try to match `shape` at the head of `l`; on success return the matched
characters. -/
def matchShapeTake : List (Char → Bool) → List Char → Option (List Char)
  | [], _ => some []
  | _ :: _, [] => none
  | p :: ps, c :: cs =>
    if p c then (matchShapeTake ps cs).map (fun m => c :: m) else none

/-- Leftmost match of `shape` anywhere in `l` (model of `re.search` for a
fixed-shape pattern), returning the matched characters. -/
def findShape (shape : List (Char → Bool)) : List Char → Option (List Char)
  | [] => matchShapeTake shape []
  | c :: cs =>
    match matchShapeTake shape (c :: cs) with
    | some m => some m
    | none => findShape shape cs

/-- Fuelled scanner deleting every non-overlapping occurrence of `shape`
from the left (model of `re.sub(shape, '', s)`); for a nonempty shape a
fuel of `l.length` is enough, since every step consumes at least one
character. -/
def subShapeGo (shape : List (Char → Bool)) : Nat → List Char → List Char
  | _, [] => []
  | 0, l => l
  | fuel + 1, c :: cs =>
    match matchShape shape (c :: cs) with
    | some rest => subShapeGo shape fuel rest
    | none => c :: subShapeGo shape fuel cs

/-- Delete every non-overlapping occurrence of `shape`, scanning left to
right. -/
def subShape (shape : List (Char → Bool)) (l : List Char) : List Char :=
  subShapeGo shape l.length l

/-- A run of `n` decimal digits. -/
def digitShape (n : Nat) : List (Char → Bool) :=
  List.replicate n (fun c => c.isDigit)

/-- The pattern `\d{4}-\d{2}-\d{2}`. -/
def dateShape : List (Char → Bool) :=
  digitShape 4 ++ [fun c => c == '-'] ++ digitShape 2
    ++ [fun c => c == '-'] ++ digitShape 2

/-- A time separator in the `\d{2}[:_-]\d{2}[:_-]\d{2}` pattern. -/
def sepCharHms (c : Char) : Bool :=
  c == ':' || c == '_' || c == '-'

/-- The pattern `\d{2}[:_-]\d{2}[:_-]\d{2}`. -/
def hmsShape : List (Char → Bool) :=
  digitShape 2 ++ [sepCharHms] ++ digitShape 2 ++ [sepCharHms] ++ digitShape 2

/-- The pattern `\d{8}_\d{6}` (used both for detection and for time
extraction, where the groups are the date and time digits). -/
def shape86 : List (Char → Bool) :=
  digitShape 8 ++ [fun c => c == '_'] ++ digitShape 6

/-! ### Filename cleaning (`remove_temporal_elements`,
`organize_footage_links.py` lines 1023-1074) -/

/-- A filename separator for the `[_-]` character class. -/
def fnSep (c : Char) : Bool :=
  c == '_' || c == '-'

/-- Model of `re.sub(r'^[_-]+|[_-]+$', '', s)`: drop separator runs at both
ends. -/
def stripEndSeps (l : List Char) : List Char :=
  ((l.dropWhile fnSep).reverse.dropWhile fnSep).reverse

/-- Scanner for `re.sub(r'[_-]+', '_', s)`: each maximal separator run
becomes a single underscore; the flag records being inside a run. -/
def collapseGo : Bool → List Char → List Char
  | _, [] => []
  | inRun, c :: cs =>
    if fnSep c then
      (if inRun then collapseGo true cs else '_' :: collapseGo true cs)
    else c :: collapseGo false cs

/-- Model of `re.sub(r'[_-]+', '_', s)`. -/
def collapseSeps (l : List Char) : List Char :=
  collapseGo false l

/-- Characters before the first `'.'` (model of `s.split('.')[0]`). -/
def beforeFirstDot (l : List Char) : List Char :=
  l.takeWhile (fun c => !(c == '.'))

/-- Characters after the last `'.'` (model of `s.split('.')[-1]` and of
`s.rsplit('.', 1)[1]` when a dot exists). -/
def afterLastDot (l : List Char) : List Char :=
  (l.reverse.takeWhile (fun c => !(c == '.'))).reverse

/-- Characters before the last `'.'` (model of `s.rsplit('.', 1)[0]`). -/
def beforeLastDot (l : List Char) : List Char :=
  match l.reverse.dropWhile (fun c => !(c == '.')) with
  | [] => l
  | _ :: rest => rest.reverse

/-- Does the list contain a `'.'` (model of `'.' in s`)? -/
def hasDot (l : List Char) : Bool :=
  l.any (fun c => c == '.')

/-- The four temporal substitutions of `remove_temporal_elements` followed by
end-trimming and separator collapsing, in source order. -/
def cleanCore (l : List Char) : List Char :=
  collapseSeps (stripEndSeps (subShape hmsShape (subShape (digitShape 6)
    (subShape dateShape (subShape (digitShape 8) l)))))

/-- The empty-stem placeholder step of `remove_temporal_elements`: when the
part before the first dot is empty or all separators, replace the whole name
by `photo`/`video` plus the part from the last dot on. -/
def placeholderStep (file_type : String) (l : List Char) : List Char :=
  let name_part := if hasDot l then beforeFirstDot l else l
  if name_part.all fnSep then
    (if file_type = "photo" then "photo".data else "video".data)
      ++ (if hasDot l then '.' :: afterLastDot l else [])
  else l

/-- Re-insertion of the preserved `_stabilized` marker immediately before
the extension. -/
def stabReappend (l : List Char) : List Char :=
  if hasDot l then
    beforeLastDot l ++ "_stabilized".data ++ '.' :: afterLastDot l
  else l ++ "_stabilized".data

/-- Model of Python slicing `s[:-15] + s[-4:]`, which removes the 11
characters of `_stabilized` while keeping the 4-character extension. -/
def stripStabSlice (l : List Char) : List Char :=
  l.take (l.length - 15) ++ l.drop (l.length - 4)

/-- Direct translation of `remove_temporal_elements`. -/
def remove_temporal_elements (filename : String) (file_type : String) : String :=
  let fl := filename.data
  let has_stabilized := endsList "_stabilized.mp4".data fl
    || endsList "_stabilized.MP4".data fl
  let base_filename :=
    if has_stabilized then
      (if endsList "_stabilized.mp4".data (asciiLower filename).data then
        stripStabSlice fl
      else fl)
    else fl
  let c6 := cleanCore base_filename
  let c7 := placeholderStep file_type c6
  let c8 :=
    if has_stabilized && hasDot c7 then
      beforeLastDot c7 ++ "_stabilized".data ++ '.' :: afterLastDot c7
    else if has_stabilized then c7 ++ "_stabilized".data
    else c7
  ⟨c8⟩

/-- C9 counterexample: the original `20240101_stabilized.mov` carries a
`_stabilized` suffix, but because its extension is not `.mp4`/`.MP4` the
code does not re-append the suffix after cleaning: the end-trimming eats the
leading underscore and the result is `stabilized.mov`, whose stem does not
end in `_stabilized`; and the same basename is treated differently for the
extension spellings `.mp4` and `.Mp4`, refuting the for-every-extension and
letter-case generality. -/
theorem C9_stabilized_counterexample :
    remove_temporal_elements "20240101_stabilized.mov" "video" = "stabilized.mov" ∧
    endsList "_stabilized".data
      (beforeLastDot (remove_temporal_elements "20240101_stabilized.mov" "video").data)
      = false ∧
    remove_temporal_elements "20240101_stabilized.mp4" "video" = "video_stabilized.mp4" ∧
    remove_temporal_elements "20240101_stabilized.Mp4" "video" = "stabilized.Mp4" := by
  decide

theorem startsList_map (f : Char → Char) :
    ∀ p l, startsList p l = true → startsList (p.map f) (l.map f) = true := by
  intro p
  induction p with
  | nil => intro l _; rfl
  | cons a ps ih =>
    intro l h
    cases l with
    | nil => simp [startsList] at h
    | cons c cs =>
      simp only [startsList, Bool.and_eq_true, beq_iff_eq] at h
      obtain ⟨rfl, h2⟩ := h
      simp [startsList, ih cs h2]

theorem endsList_map (f : Char → Char) (p l : List Char)
    (h : endsList p l = true) : endsList (p.map f) (l.map f) = true := by
  unfold endsList at h
  unfold endsList
  rw [← List.map_reverse, ← List.map_reverse]
  exact startsList_map f _ _ h

/-- C9 (amended): the cleaner strips the four temporal run shapes in order,
trims and collapses separators, and substitutes the `photo`/`video`
placeholder for an emptied stem; but the `_stabilized` suffix is stripped
first and re-appended immediately before the extension only when the
original filename ends exactly in `_stabilized.mp4` or `_stabilized.MP4`
(so not for other extensions or other casings, where the literal
`_stabilized` text merely goes through cleaning like any other stem text). -/
theorem C9_cleaning_amended (filename file_type : String) :
    (endsList "_stabilized.mp4".data filename.data = true ∨
      endsList "_stabilized.MP4".data filename.data = true →
      remove_temporal_elements filename file_type
        = ⟨stabReappend (placeholderStep file_type
            (cleanCore (stripStabSlice filename.data)))⟩) ∧
    (endsList "_stabilized.mp4".data filename.data = false →
      endsList "_stabilized.MP4".data filename.data = false →
      remove_temporal_elements filename file_type
        = ⟨placeholderStep file_type (cleanCore filename.data)⟩) := by
  constructor
  · intro h
    have hlow : endsList "_stabilized.mp4".data (asciiLower filename).data = true := by
      rcases h with h | h
      · have h2 := endsList_map Char.toLower _ _ h
        simpa [asciiLower] using h2
      · have h2 := endsList_map Char.toLower _ _ h
        simpa [asciiLower] using h2
    have hstab : (endsList "_stabilized.mp4".data filename.data
        || endsList "_stabilized.MP4".data filename.data) = true := by
      rcases h with h | h <;> simp [h]
    simp only [remove_temporal_elements, hstab, hlow, if_true, Bool.true_and]
    unfold stabReappend
    by_cases hd : hasDot (placeholderStep file_type
        (cleanCore (stripStabSlice filename.data))) = true <;>
      simp [hd]
  · intro h1 h2
    simp [remove_temporal_elements, h1, h2]

/-- Witness for C9: the amended rule applied at concrete filenames for both
the exact `_stabilized.mp4` ending and a plain name. -/
theorem C9_cleaning_amended_witness :
    remove_temporal_elements "clip_20240101_stabilized.mp4" "video"
      = ⟨stabReappend (placeholderStep "video"
          (cleanCore (stripStabSlice "clip_20240101_stabilized.mp4".data)))⟩ ∧
    remove_temporal_elements "VID_20240101.mov" "video"
      = ⟨placeholderStep "video" (cleanCore "VID_20240101.mov".data)⟩ :=
  ⟨(C9_cleaning_amended "clip_20240101_stabilized.mp4" "video").1
      (Or.inl (by decide)),
   (C9_cleaning_amended "VID_20240101.mov" "video").2 (by decide) (by decide)⟩

/-! ### Non-drone time extraction (`extract_time_from_file`,
`organize_footage_links.py` lines 908-1021, and
`_get_exiftool_datetime_unified`, lines 423-466)

The function is modelled after the one-hop stabilized indirection has been
resolved and with no per-group time adjustment configured (the
`time_adjustments` argument defaults to `None`, which makes
`apply_adjustment` the identity).  The three exiftool queries of
`_get_exiftool_datetime_unified` (QuickTime:DateTimeOriginal,
DateTimeOriginal, QuickTime:CreationDate, in that order) are inputs. -/

/-- A parsed civil datetime (what `datetime(...)` or `fromisoformat`
yields). -/
structure DT where
  y : Nat
  mo : Nat
  d : Nat
  h : Nat
  mi : Nat
  s : Nat
deriving DecidableEq

/-- Outcome of `extract_time_from_file`: either an `HHhMMmSSs` time (kept as
its three numeric fields) or the literal `KEEP_ORIGINAL` marker. -/
inductive TimeResult where
  | time (h mi s : Nat)
  | keepOriginal
deriving DecidableEq

/-- One exiftool field query: `err` models a subprocess-level failure that
aborts the chain, `empty` models a clean run with no usable output (the
output was empty or `-`, or a fallback returned a nonzero code), and
`val p` models a usable output string whose `fromisoformat` parse is `p`
(`none` when parsing raises `ValueError`). -/
inductive ExifField where
  | err
  | empty
  | val (parsed : Option DT)
deriving DecidableEq

/-- Direct translation of `_get_exiftool_datetime_unified`: the main field
is consulted first; on a usable value it is returned; on a clean miss the
two fallback fields are consulted in order; a subprocess failure yields no
value. -/
def exiftoolUnified : ExifField → ExifField → ExifField → Option (Option DT)
  | .err, _, _ => none
  | .val v, _, _ => some v
  | .empty, .err, _ => none
  | .empty, .val v, _ => some v
  | .empty, .empty, .err => none
  | .empty, .empty, .val v => some v
  | .empty, .empty, .empty => none

/-- Gregorian leap-year rule (as in Python `datetime`). -/
def isLeapYear (y : Nat) : Bool :=
  (y % 4 == 0 && y % 100 != 0) || y % 400 == 0

/-- Days in a month (as in Python `datetime`). -/
def daysInMonth (y mo : Nat) : Nat :=
  if mo = 2 then (if isLeapYear y then 29 else 28)
  else if mo = 4 ∨ mo = 6 ∨ mo = 9 ∨ mo = 11 then 30 else 31

/-- Does `datetime(y, mo, d, h, mi, s)` succeed (no `ValueError`)? -/
def validDateTime (y mo d h mi s : Nat) : Bool :=
  decide (1 ≤ y) && decide (y ≤ 9999) && decide (1 ≤ mo) && decide (mo ≤ 12)
    && decide (1 ≤ d) && decide (d ≤ daysInMonth y mo)
    && decide (h ≤ 23) && decide (mi ≤ 59) && decide (s ≤ 59)

/-- Pattern 1 of `extract_time_from_file`: leftmost
`(\d{4})(\d{2})(\d{2})_(\d{2})(\d{2})(\d{2})` match, validated through the
`datetime` constructor and the 1990-2030 year range. -/
def pattern1Extract (l : List Char) : Option DT :=
  match findShape shape86 l with
  | some m =>
    let y := valBE (m.take 4)
    let mo := valBE ((m.drop 4).take 2)
    let d := valBE ((m.drop 6).take 2)
    let h := valBE ((m.drop 9).take 2)
    let mi := valBE ((m.drop 11).take 2)
    let s := valBE ((m.drop 13).take 2)
    if validDateTime y mo d h mi s && decide (1990 ≤ y) && decide (y ≤ 2030)
    then some ⟨y, mo, d, h, mi, s⟩ else none
  | none => none

/-- Pattern 2 of `extract_time_from_file`: leftmost 14-contiguous-digit
match, same validation. -/
def pattern2Extract (l : List Char) : Option DT :=
  match findShape (digitShape 14) l with
  | some m =>
    let y := valBE (m.take 4)
    let mo := valBE ((m.drop 4).take 2)
    let d := valBE ((m.drop 6).take 2)
    let h := valBE ((m.drop 8).take 2)
    let mi := valBE ((m.drop 10).take 2)
    let s := valBE ((m.drop 12).take 2)
    if validDateTime y mo d h mi s && decide (1990 ≤ y) && decide (y ≤ 2030)
    then some ⟨y, mo, d, h, mi, s⟩ else none
  | none => none

/-- Model of `_has_filename_datetime`: the filename contains an 8-digit run,
a `YYYY-MM-DD` shape, an `8digits_6digits` shape, or 14 contiguous digits. -/
def hasFilenameDatetime (l : List Char) : Bool :=
  (findShape (digitShape 8) l).isSome || (findShape dateShape l).isSome
    || (findShape shape86 l).isSome || (findShape (digitShape 14) l).isSome

/-- Civil year of the naive timestamp `u` (seconds). -/
def secsYear (u : Int) : Int :=
  civilYearOfDays (Int.fdiv u 86400)

/-- Hour of day of the naive timestamp `u`. -/
def secsHour (u : Int) : Nat :=
  (Int.emod u 86400).toNat / 3600

/-- Minute of the naive timestamp `u`. -/
def secsMin (u : Int) : Nat :=
  (Int.emod u 86400).toNat / 60 % 60

/-- Second of the naive timestamp `u`. -/
def secsSec (u : Int) : Nat :=
  (Int.emod u 86400).toNat % 60

/-- The body of `extract_time_from_file` after the drone branch: filename
patterns 1 and 2 first; if the filename has no date pattern at all, the
exiftool chain, else (date pattern present but unusable) the mtime fallback
with the 1990-2300 sanity range; `KEEP_ORIGINAL` otherwise. -/
def extractTimeCore (filename : String) (e1 e2 e3 : ExifField)
    (mtime : Int) : TimeResult :=
  match pattern1Extract filename.data with
  | some dt => .time dt.h dt.mi dt.s
  | none =>
    match pattern2Extract filename.data with
    | some dt => .time dt.h dt.mi dt.s
    | none =>
      if !(hasFilenameDatetime filename.data) then
        match exiftoolUnified e1 e2 e3 with
        | some (some dt) => .time dt.h dt.mi dt.s
        | _ => .keepOriginal
      else
        if decide (1990 ≤ secsYear mtime) && decide (secsYear mtime ≤ 2300) then
          .time (secsHour mtime) (secsMin mtime) (secsSec mtime)
        else .keepOriginal

/-- Model of `extract_time_from_file`: for drone paths the drone metadata
decision (given here as the already-computed optional result `droneData`) is
consulted first and used when available; otherwise the shared fallback core
runs. -/
def extract_time_from_file (parts : List String) (filename : String)
    (droneData : Option DT) (e1 e2 e3 : ExifField) (mtime : Int) : TimeResult :=
  if pathHasDroneSegment parts then
    match droneData with
    | some dt => .time dt.h dt.mi dt.s
    | none => extractTimeCore filename e1 e2 e3 mtime
  else extractTimeCore filename e1 e2 e3 mtime

/-- C3 counterexample: a non-drone file named `IMG.mp4` (no filename date)
whose exiftool chain yields nothing is returned as `KEEP_ORIGINAL` even
though its mtime is perfectly readable and lies in the sane year range
(2024), so the mtime is not the claimed last resort for this file. -/
theorem C3_mtime_last_resort_counterexample :
    extract_time_from_file ["Footage_raw", "cell_blain", "IMG.mp4"] "IMG.mp4"
      none .empty .empty .empty (daysFromCivil 2024 6 1 * 86400 + 45296)
      = .keepOriginal ∧
    pathHasDroneSegment ["Footage_raw", "cell_blain", "IMG.mp4"] = false ∧
    1990 ≤ secsYear (daysFromCivil 2024 6 1 * 86400 + 45296) ∧
    secsYear (daysFromCivil 2024 6 1 * 86400 + 45296) ≤ 2030 := by
  decide

/-- C3 (amended): for non-drone files the chain is: filename patterns
`8digits_6digits` then 14 digits (validated to 1990-2030) first; if the
filename has no date pattern at all, the sidecar primary field then its two
secondary fields in fixed order, and on total sidecar failure the result is
the `KEEP_ORIGINAL` marker -- mtime is NOT consulted; the mtime fallback
(validated to 1990-2300) applies exactly when the filename contains a date
pattern that did not yield a usable date+time. -/
theorem C3_fallback_chain_amended (parts : List String) (filename : String)
    (droneData : Option DT) (e1 e2 e3 : ExifField) (mtime : Int) :
    (pathHasDroneSegment parts = false →
      extract_time_from_file parts filename droneData e1 e2 e3 mtime
        = extractTimeCore filename e1 e2 e3 mtime) ∧
    (∀ dt, pattern1Extract filename.data = some dt →
      extractTimeCore filename e1 e2 e3 mtime = .time dt.h dt.mi dt.s) ∧
    (pattern1Extract filename.data = none →
      ∀ dt, pattern2Extract filename.data = some dt →
      extractTimeCore filename e1 e2 e3 mtime = .time dt.h dt.mi dt.s) ∧
    (pattern1Extract filename.data = none →
      pattern2Extract filename.data = none →
      hasFilenameDatetime filename.data = false →
      extractTimeCore filename e1 e2 e3 mtime
        = (match exiftoolUnified e1 e2 e3 with
            | some (some dt) => TimeResult.time dt.h dt.mi dt.s
            | _ => TimeResult.keepOriginal)) ∧
    (∀ v, exiftoolUnified (.val v) e2 e3 = some v) ∧
    (exiftoolUnified .empty e2 e3
      = (match e2 with
          | .val v => some v
          | .err => none
          | .empty =>
            match e3 with
            | .val v => some v
            | _ => none)) ∧
    (pattern1Extract filename.data = none →
      pattern2Extract filename.data = none →
      hasFilenameDatetime filename.data = true →
      extractTimeCore filename e1 e2 e3 mtime
        = (if 1990 ≤ secsYear mtime ∧ secsYear mtime ≤ 2300 then
            TimeResult.time (secsHour mtime) (secsMin mtime) (secsSec mtime)
          else TimeResult.keepOriginal)) := by
  refine ⟨?_, ?_, ?_, ?_, ?_, ?_, ?_⟩
  · intro h
    unfold extract_time_from_file
    rw [h]
    simp
  · intro dt h
    unfold extractTimeCore
    rw [h]
  · intro h1 dt h2
    unfold extractTimeCore
    rw [h1, h2]
  · intro h1 h2 h3
    unfold extractTimeCore
    rw [h1, h2, h3]
    simp
  · intro v
    rfl
  · cases e2 with
    | err => rfl
    | val v => rfl
    | empty => cases e3 <;> rfl
  · intro h1 h2 h3
    unfold extractTimeCore
    rw [h1, h2, h3]
    simp [decide_eq_true_eq]

/-- Witness for C3: the spec's concrete scenario A, `20250821_051728_IMG.mp4`
under `cell_blain`: the filename pattern yields 05:17:28 with no sidecar
tool consulted (all three sidecar inputs are hard failures). -/
theorem C3_fallback_chain_amended_witness :
    extract_time_from_file ["Footage_raw", "cell_blain"] "20250821_051728_IMG.mp4"
      none .err .err .err 0 = .time 5 17 28 := by
  rw [(C3_fallback_chain_amended ["Footage_raw", "cell_blain"]
      "20250821_051728_IMG.mp4" none .err .err .err 0).1 (by decide)]
  exact (C3_fallback_chain_amended ["Footage_raw", "cell_blain"]
      "20250821_051728_IMG.mp4" none .err .err .err 0).2.1
    ⟨2025, 8, 21, 5, 17, 28⟩ (by decide)

/-! ### Stabilized-sibling filtering in discovery (`list_media_files`,
`organize_footage_links.py` lines 837-901)

A discovered file is a parent directory, a stem and an extension (which
together form its path, so a directory listing has no duplicate records).
The first pass fills a dict keyed by `(parent, base_name, ext.lower())`
whose two slots hold the last original and the last stabilized file written;
the second pass yields, per key in first-insertion order, the stabilized
version if present and the original otherwise.  The model below renders the
dict as a function of the scan history: the key list in first-seen order and,
per key, the last matching write to each slot. -/

/-- A discovered file: parent directory, stem, extension (with dot). -/
structure MFile where
  parent : String
  stem : String
  ext : String
deriving DecidableEq

/-- Python `str.strip()` whitespace test (ASCII whitespace). -/
def isSpaceC (c : Char) : Bool :=
  c == ' ' || c == '\t' || c == '\n' || c == '\r'

/-- Model of Python `s.strip()`. -/
def pyStrip (s : String) : String :=
  ⟨((s.data.dropWhile isSpaceC).reverse.dropWhile isSpaceC).reverse⟩

/-- Split the stem into (base name before the stabilized marker, whether the
stem ends, case-insensitively, in `_stabilized` or ` stabilized`). -/
def stabStrip (stem : String) : String × Bool :=
  let sl := (asciiLower stem).data
  if endsList "_stabilized".data sl then
    (⟨stem.data.take (stem.data.length - 11)⟩, true)
  else if endsList " stabilized".data sl then
    (⟨stem.data.take (stem.data.length - 11)⟩, true)
  else (stem, false)

/-- Is the file a stabilized rendition? -/
def isStabilized (f : MFile) : Bool :=
  (stabStrip f.stem).2

/-- The grouping base name: the stem with the stabilized marker stripped and
surrounding whitespace removed. -/
def baseNameOf (f : MFile) : String :=
  pyStrip (stabStrip f.stem).1

/-- The dict key `(p.parent, base_name, ext)` of the first pass. -/
def groupKeyOf (f : MFile) : String × String × String :=
  (f.parent, baseNameOf f, asciiLower f.ext)

/-- File kind by extension set membership. -/
inductive FType where
  | video
  | photo
deriving DecidableEq

/-- The type filter of the first pass: videos unless `photos_only`, photos
unless `videos_only`, in that order; `none` models a skipped file. -/
def fileTypeOf (videoExts photoExts : List String) (videosOnly photosOnly : Bool)
    (f : MFile) : Option FType :=
  if !photosOnly && videoExts.contains (asciiLower f.ext) then some .video
  else if !videosOnly && photoExts.contains (asciiLower f.ext) then some .photo
  else none

/-- First-seen-order deduplication (the key order of a Python dict). -/
def firstDedup {α : Type} [DecidableEq α] (l : List α) : List α :=
  l.foldl (fun acc k => if k ∈ acc then acc else acc ++ [k]) []

/-- The two slots of one dict entry. -/
structure Slots where
  original : Option MFile
  stabilized : Option MFile

/-- The dict entry for key `k` after the whole scan: each slot holds the
last matching file written to it. -/
def slotFor (matched : MFile → Bool) (files : List MFile)
    (k : String × String × String) : Slots :=
  ⟨(files.filter (fun f =>
      matched f && decide (groupKeyOf f = k) && !(isStabilized f))).getLast?,
   (files.filter (fun f =>
      matched f && decide (groupKeyOf f = k) && isStabilized f)).getLast?⟩

/-- The second pass on one entry: stabilized version if present, else the
original. -/
def pickSlot (sl : Slots) : Option MFile :=
  match sl.stabilized with
  | some s => some s
  | none => sl.original

/-- Model of `list_media_files`: for each key in first-seen order, yield the
preferred version of its group. -/
def list_media_files (videoExts photoExts : List String)
    (videosOnly photosOnly : Bool) (files : List MFile) : List MFile :=
  let matched := fun f => (fileTypeOf videoExts photoExts videosOnly photosOnly f).isSome
  (firstDedup ((files.filter matched).map groupKeyOf)).filterMap
    (fun k => pickSlot (slotFor matched files k))

theorem mem_foldl_dedup {α : Type} [DecidableEq α] (l : List α) :
    ∀ acc k, (k ∈ l.foldl (fun acc k => if k ∈ acc then acc else acc ++ [k]) acc)
      ↔ k ∈ acc ∨ k ∈ l := by
  induction l with
  | nil => intro acc k; simp
  | cons a t ih =>
    intro acc k
    by_cases ha : a ∈ acc
    · rw [List.foldl_cons, if_pos ha, ih]
      constructor
      · rintro (h | h)
        · exact Or.inl h
        · exact Or.inr (List.mem_cons_of_mem a h)
      · rintro (h | h)
        · exact Or.inl h
        · rcases List.mem_cons.mp h with rfl | h
          · exact Or.inl ha
          · exact Or.inr h
    · rw [List.foldl_cons, if_neg ha, ih]
      simp only [List.mem_append, List.mem_singleton, List.mem_cons]
      tauto

theorem nodup_foldl_dedup {α : Type} [DecidableEq α] (l : List α) :
    ∀ acc, acc.Nodup →
      (l.foldl (fun acc k => if k ∈ acc then acc else acc ++ [k]) acc).Nodup := by
  induction l with
  | nil => intro acc h; simpa using h
  | cons a t ih =>
    intro acc h
    by_cases ha : a ∈ acc
    · rw [List.foldl_cons, if_pos ha]
      exact ih acc h
    · rw [List.foldl_cons, if_neg ha]
      apply ih
      simp [List.nodup_append, h, ha]

theorem mem_firstDedup {α : Type} [DecidableEq α] (l : List α) (k : α) :
    k ∈ firstDedup l ↔ k ∈ l := by
  unfold firstDedup
  rw [mem_foldl_dedup]
  simp

theorem nodup_firstDedup {α : Type} [DecidableEq α] (l : List α) :
    (firstDedup l).Nodup :=
  nodup_foldl_dedup l [] List.nodup_nil

theorem pickSlot_slotFor_spec (matched : MFile → Bool) (files : List MFile)
    (k : String × String × String) (b : MFile)
    (hb : pickSlot (slotFor matched files k) = some b) :
    b ∈ files ∧ matched b = true ∧ groupKeyOf b = k := by
  unfold pickSlot slotFor at hb
  rcases hs : (files.filter (fun f =>
      matched f && decide (groupKeyOf f = k) && isStabilized f)).getLast? with _ | s
  · rw [hs] at hb
    simp only at hb
    have hmem := List.mem_of_mem_getLast? hb
    have := List.mem_filter.mp hmem
    refine ⟨this.1, ?_, ?_⟩ <;> simp_all
  · rw [hs] at hb
    simp only at hb
    obtain rfl : s = b := by simpa using hb
    have hmem := List.mem_of_mem_getLast? hs
    have := List.mem_filter.mp hmem
    refine ⟨this.1, ?_, ?_⟩ <;> simp_all

theorem pickSlot_stab (matched : MFile → Bool) (files : List MFile)
    (k : String × String × String) (s : MFile) (hs : s ∈ files)
    (hm : matched s = true) (hst : isStabilized s = true)
    (hk : groupKeyOf s = k) :
    ∃ b, pickSlot (slotFor matched files k) = some b ∧ isStabilized b = true := by
  have hmem : s ∈ files.filter (fun f =>
      matched f && decide (groupKeyOf f = k) && isStabilized f) := by
    rw [List.mem_filter]
    exact ⟨hs, by simp [hm, hst, hk]⟩
  have hne : files.filter (fun f =>
      matched f && decide (groupKeyOf f = k) && isStabilized f) ≠ [] :=
    List.ne_nil_of_mem hmem
  rcases hlast : (files.filter (fun f =>
      matched f && decide (groupKeyOf f = k) && isStabilized f)).getLast? with _ | b
  · exact absurd (List.getLast?_eq_none_iff.mp hlast) hne
  · refine ⟨b, ?_, ?_⟩
    · unfold pickSlot slotFor
      rw [hlast]
    · have hbm := List.mem_of_mem_getLast? hlast
      have := (List.mem_filter.mp hbm).2
      simp only [Bool.and_eq_true] at this
      exact this.2

/-- The first-pass admission test of `list_media_files`. -/
def matchedBy (videoExts photoExts : List String) (videosOnly photosOnly : Bool)
    (f : MFile) : Bool :=
  (fileTypeOf videoExts photoExts videosOnly photosOnly f).isSome

/-- C10: whenever a matching original and a matching stabilized sibling share
a group key (same parent, same base stem after stripping the stabilized
marker, same lower-cased extension), the original is excluded from the
selection and a stabilized file of that group is selected instead; the
selection has no duplicates; and everything selected is a matching input
file. -/
theorem C10_stabilized_filtering (videoExts photoExts : List String)
    (videosOnly photosOnly : Bool) (files : List MFile) :
    (∀ o s, o ∈ files → s ∈ files →
      matchedBy videoExts photoExts videosOnly photosOnly o = true →
      matchedBy videoExts photoExts videosOnly photosOnly s = true →
      isStabilized o = false → isStabilized s = true →
      groupKeyOf o = groupKeyOf s →
      o ∉ list_media_files videoExts photoExts videosOnly photosOnly files ∧
      ∃ b ∈ list_media_files videoExts photoExts videosOnly photosOnly files,
        isStabilized b = true ∧ groupKeyOf b = groupKeyOf o) ∧
    (list_media_files videoExts photoExts videosOnly photosOnly files).Nodup ∧
    (∀ b ∈ list_media_files videoExts photoExts videosOnly photosOnly files,
      b ∈ files ∧ matchedBy videoExts photoExts videosOnly photosOnly b = true) := by
  set m := fun f => (fileTypeOf videoExts photoExts videosOnly photosOnly f).isSome
    with hm
  have hmb : matchedBy videoExts photoExts videosOnly photosOnly = m := rfl
  refine ⟨?_, ?_, ?_⟩
  · intro o s ho hs hmo hms hso hss hkey
    rw [hmb] at hmo hms
    constructor
    · intro hout
      unfold list_media_files at hout
      rw [List.mem_filterMap] at hout
      obtain ⟨k, _, hpick⟩ := hout
      obtain ⟨-, -, hko⟩ := pickSlot_slotFor_spec m files k o hpick
      obtain ⟨b, hpb, hbst⟩ := pickSlot_stab m files k s hs hms hss
        (by rw [← hkey, hko])
      rw [hpick] at hpb
      obtain rfl : o = b := by simpa using hpb
      rw [hso] at hbst
      exact Bool.false_ne_true hbst
    · obtain ⟨b, hpb, hbst⟩ := pickSlot_stab m files (groupKeyOf s) s hs hms hss rfl
      refine ⟨b, ?_, hbst, ?_⟩
      · unfold list_media_files
        rw [List.mem_filterMap]
        refine ⟨groupKeyOf s, ?_, hpb⟩
        rw [mem_firstDedup, List.mem_map]
        exact ⟨s, List.mem_filter.mpr ⟨hs, hms⟩, rfl⟩
      · obtain ⟨-, -, hkb⟩ := pickSlot_slotFor_spec m files (groupKeyOf s) b hpb
        rw [hkb, hkey]
  · unfold list_media_files
    apply List.Nodup.filterMap
    · intro k k' b hb hb'
      have h1 := pickSlot_slotFor_spec m files k b (by simpa using hb)
      have h2 := pickSlot_slotFor_spec m files k' b (by simpa using hb')
      rw [← h1.2.2, ← h2.2.2]
    · exact nodup_firstDedup _
  · intro b hb
    unfold list_media_files at hb
    rw [List.mem_filterMap] at hb
    obtain ⟨k, _, hpick⟩ := hb
    obtain ⟨h1, h2, -⟩ := pickSlot_slotFor_spec m files k b hpick
    exact ⟨h1, h2⟩

/-- Witness for C10: a scan with `a.mp4` and `a_stabilized.mp4` in the same
directory selects only the stabilized file. -/
theorem C10_stabilized_filtering_witness :
    (⟨"dir", "a", ".mp4"⟩ : MFile) ∉
      list_media_files [".mp4"] [] false false
        [⟨"dir", "a", ".mp4"⟩, ⟨"dir", "a_stabilized", ".mp4"⟩] ∧
    ∃ b ∈ list_media_files [".mp4"] [] false false
        [⟨"dir", "a", ".mp4"⟩, ⟨"dir", "a_stabilized", ".mp4"⟩],
      isStabilized b = true ∧ groupKeyOf b = groupKeyOf ⟨"dir", "a", ".mp4"⟩ :=
  (C10_stabilized_filtering [".mp4"] [] false false
      [⟨"dir", "a", ".mp4"⟩, ⟨"dir", "a_stabilized", ".mp4"⟩]).1
    ⟨"dir", "a", ".mp4"⟩ ⟨"dir", "a_stabilized", ".mp4"⟩
    (by decide) (by decide) (by decide) (by decide) (by decide) (by decide)
    (by decide)

/-! ### Transfer batch: copy, verify, delete
(`transfer_organized_footage.py`, `copy_with_verification` lines 176-198 and
`main` lines 337-409)

A transfer item is abstracted to the outcomes of its three effectful steps:
whether `shutil.copy2` completes, whether the post-copy size comparison
matches, and whether the final pre-deletion re-verification passes. -/

/-- One batch item with the outcomes of its effectful steps. -/
structure TItem where
  copyOk : Bool
  sizeMatch : Bool
  finalVerify : Bool
deriving DecidableEq

/-- Model of `copy_with_verification`: returns (success, partial destination
deleted).  A failed copy returns failure; a completed copy whose size check
fails deletes the partial destination and returns failure; otherwise
success. -/
def copy_with_verification (t : TItem) : Bool × Bool :=
  if t.copyOk then
    (if t.sizeMatch then (true, false) else (false, true))
  else (false, false)

/-- One iteration of the transfer loop, appending the item to the success or
failure list. -/
def transferStep (acc : List TItem × List TItem) (t : TItem) :
    List TItem × List TItem :=
  if (copy_with_verification t).1 then (acc.1 ++ [t], acc.2)
  else (acc.1, acc.2 ++ [t])

/-- The transfer loop over the whole batch: (successful, failed) in order. -/
def processTransfers (ts : List TItem) : List TItem × List TItem :=
  ts.foldl transferStep ([], [])

/-- Model of the deletion phase of `main`: originals are deleted only in
move mode, only when there was at least one success and no failure at all,
and each deletion is guarded by a final re-verification. -/
def deletedOriginals (copyMode : Bool) (ts : List TItem) : List TItem :=
  if !copyMode && !((processTransfers ts).1.isEmpty)
      && (processTransfers ts).2.isEmpty then
    (processTransfers ts).1.filter (fun t => t.finalVerify)
  else []

theorem processTransfers_go : ∀ (ts : List TItem) (acc : List TItem × List TItem),
    ts.foldl transferStep acc
      = (acc.1 ++ (processTransfers ts).1, acc.2 ++ (processTransfers ts).2) := by
  intro ts
  induction ts with
  | nil =>
    intro acc
    simp [processTransfers]
  | cons t ts ih =>
    intro acc
    have hcons : processTransfers (t :: ts)
        = ((transferStep ([], []) t).1 ++ (processTransfers ts).1,
           (transferStep ([], []) t).2 ++ (processTransfers ts).2) := by
      show List.foldl transferStep ([], []) (t :: ts) = _
      rw [List.foldl_cons, ih (transferStep ([], []) t)]
    rw [List.foldl_cons, ih (transferStep acc t), hcons]
    unfold transferStep
    by_cases hc : (copy_with_verification t).1 = true <;> simp [hc]

theorem processTransfers_succ_spec : ∀ (ts : List TItem) (t : TItem),
    t ∈ (processTransfers ts).1 →
      (copy_with_verification t).1 = true ∧ t ∈ ts := by
  intro ts
  induction ts with
  | nil => intro t h; simp [processTransfers] at h
  | cons a ts ih =>
    intro t h
    have hcons : processTransfers (a :: ts)
        = ((transferStep ([], []) a).1 ++ (processTransfers ts).1,
           (transferStep ([], []) a).2 ++ (processTransfers ts).2) := by
      show List.foldl transferStep ([], []) (a :: ts) = _
      rw [List.foldl_cons, processTransfers_go ts (transferStep ([], []) a)]
    rw [hcons] at h
    by_cases hc : (copy_with_verification a).1 = true
    · simp only [transferStep, hc, if_true, List.nil_append] at h
      rcases List.mem_append.mp h with h1 | h2
      · obtain rfl : t = a := by simpa using h1
        exact ⟨hc, List.mem_cons_self _ _⟩
      · obtain ⟨h3, h4⟩ := ih t h2
        exact ⟨h3, List.mem_cons_of_mem a h4⟩
    · simp only [transferStep, hc, if_false, Bool.not_eq_true] at h
      rw [if_neg (by simp [hc])] at h
      simp only [List.nil_append] at h
      obtain ⟨h3, h4⟩ := ih t h
      exact ⟨h3, List.mem_cons_of_mem a h4⟩

theorem processTransfers_fail_mem : ∀ (ts : List TItem) (t : TItem),
    t ∈ ts → (copy_with_verification t).1 = false →
      t ∈ (processTransfers ts).2 := by
  intro ts
  induction ts with
  | nil => intro t h; simp at h
  | cons a ts ih =>
    intro t h hf
    have hcons : processTransfers (a :: ts)
        = ((transferStep ([], []) a).1 ++ (processTransfers ts).1,
           (transferStep ([], []) a).2 ++ (processTransfers ts).2) := by
      show List.foldl transferStep ([], []) (a :: ts) = _
      rw [List.foldl_cons, processTransfers_go ts (transferStep ([], []) a)]
    rw [hcons]
    rcases List.mem_cons.mp h with rfl | hmem
    · apply List.mem_append_left
      simp [transferStep, hf]
    · exact List.mem_append_right _ (ih t hmem hf)

/-- C5: in move mode an original is deleted only if its own copy-and-verify
succeeded; one failed copy anywhere in the batch cancels every deletion; a
completed copy whose size verification fails has its partial destination
deleted and is recorded as failed; and the loop continues past a failed
item, processing the rest of the batch normally. -/
theorem C5_move_deletion_safety (copyMode : Bool) (ts : List TItem) :
    (∀ t ∈ deletedOriginals copyMode ts,
      (copy_with_verification t).1 = true ∧ t ∈ ts) ∧
    ((∃ t ∈ ts, (copy_with_verification t).1 = false) →
      deletedOriginals copyMode ts = []) ∧
    (∀ t : TItem, t.copyOk = true → t.sizeMatch = false →
      copy_with_verification t = (false, true)) ∧
    (∀ pre post (t : TItem), (copy_with_verification t).1 = false →
      processTransfers (pre ++ t :: post)
        = ((processTransfers pre).1 ++ (processTransfers post).1,
           (processTransfers pre).2 ++ t :: (processTransfers post).2)) := by
  refine ⟨?_, ?_, ?_, ?_⟩
  · intro t ht
    unfold deletedOriginals at ht
    split at ht
    · exact processTransfers_succ_spec ts t (List.mem_of_mem_filter ht)
    · simp at ht
  · rintro ⟨t, hmem, hfail⟩
    have h2 := processTransfers_fail_mem ts t hmem hfail
    have hne : (processTransfers ts).2 ≠ [] := List.ne_nil_of_mem h2
    unfold deletedOriginals
    rw [if_neg]
    simp only [Bool.and_eq_true, Bool.not_eq_true', List.isEmpty_eq_true]
    rintro ⟨-, h⟩
    exact hne h
  · intro t h1 h2
    unfold copy_with_verification
    rw [if_pos h1, if_neg (by simp [h2])]
  · intro pre post t hfail
    unfold processTransfers
    rw [List.foldl_append, List.foldl_cons]
    rw [show pre.foldl transferStep ([], []) = processTransfers pre from rfl]
    rw [show transferStep (processTransfers pre) t
        = ((processTransfers pre).1, (processTransfers pre).2 ++ [t]) from by
      unfold transferStep
      rw [if_neg (by simp [hfail])]]
    rw [processTransfers_go post ((processTransfers pre).1,
      (processTransfers pre).2 ++ [t])]
    simp
    exact ⟨rfl, rfl⟩

/-- Witness for C5: a two-item batch whose second copy completes but fails
size verification deletes nothing, while the failing item loses its partial
destination and is recorded among the failures. -/
theorem C5_move_deletion_safety_witness :
    deletedOriginals false [⟨true, true, true⟩, ⟨true, false, true⟩] = [] ∧
    copy_with_verification ⟨true, false, true⟩ = (false, true) :=
  ⟨(C5_move_deletion_safety false [⟨true, true, true⟩, ⟨true, false, true⟩]).2.1
      ⟨⟨true, false, true⟩, by decide, by decide⟩,
   (C5_move_deletion_safety false [⟨true, true, true⟩, ⟨true, false, true⟩]).2.2.1
      ⟨true, false, true⟩ rfl rfl⟩

/-! ### Reconciliation-phase placeholder rewriting
(`update_placeholder_file_path` lines 112-159 and the transfer loop of
`main` lines 337-359 in `transfer_organized_footage.py`)

A placeholder record is its file name (identity on disk), its
`Original path` field, its transfer note, and an opaque blob standing for
every other field.  `update_placeholder_file_path` rewrites only the path
field and the transfer note of the record it is given.

In `main`, the analysis loop `for i, placeholder_file in
enumerate(placeholder_files)` leaves the loop variable `placeholder_file`
bound to the LAST analysed placeholder, and the transfer loop
`for i, (source_path, dest_path, txt_file) in enumerate(transfers)` then
calls `update_placeholder_file_path(placeholder_file, dest_path)` — the
stale variable, not `txt_file`.  The model reproduces this faithfully. -/

/-- One durable placeholder record. -/
structure Placeholder where
  name : String
  originalPath : String
  transferNote : Option String
  otherFields : String
deriving DecidableEq

/-- Model of `update_placeholder_file_path` applied to the store of records:
only the record whose name matches the target has its path field rewritten
and its transfer note set; every other field and record is untouched. -/
def updateRecord (store : List Placeholder) (target : Placeholder)
    (newPath : String) : List Placeholder :=
  store.map (fun p =>
    if p.name = target.name then
      { p with originalPath := newPath, transferNote := some newPath }
    else p)

/-- Model of the reconciliation phase of `main` as written: after the
analysis loop, the loop variable holds the last placeholder; each successful
transfer then updates that stale record with the current destination
(`dest p`), instead of updating `p`'s own record. -/
def reconcilePhase (dest : Placeholder → String)
    (placeholders : List Placeholder) : List Placeholder :=
  match placeholders.getLast? with
  | none => placeholders
  | some stale =>
    placeholders.foldl (fun store p => updateRecord store stale (dest p))
      placeholders

/-- Modelled from the spec: the intended reconciliation, in which each
successfully copied file's own placeholder record is rewritten to its final
destination. -/
def reconcileIntended (dest : Placeholder → String)
    (placeholders : List Placeholder) : List Placeholder :=
  placeholders.foldl (fun store p => updateRecord store p (dest p))
    placeholders

/-- C7 failing input: a two-record batch where both copies succeed.  The
code leaves record `A.json` completely untouched — its path still names the
raw original, not the final destination — while record `B.json` absorbed
both updates; the intended phase rewrites each record to its own
destination.  The second conjunct proves the per-record updater itself
preserves every field of every record other than the targeted record's path
and transfer note, so the written claim fails only through the stale-target
bug. -/
theorem C7_stale_placeholder_update :
    (reconcilePhase (fun p => "Footage/" ++ p.name)
        [⟨"A.json", "raw/a.mp4", none, "restA"⟩,
         ⟨"B.json", "raw/b.mp4", none, "restB"⟩]
      = [⟨"A.json", "raw/a.mp4", none, "restA"⟩,
         ⟨"B.json", "Footage/B.json", some "Footage/B.json", "restB"⟩]) ∧
    (reconcileIntended (fun p => "Footage/" ++ p.name)
        [⟨"A.json", "raw/a.mp4", none, "restA"⟩,
         ⟨"B.json", "raw/b.mp4", none, "restB"⟩]
      = [⟨"A.json", "Footage/A.json", some "Footage/A.json", "restA"⟩,
         ⟨"B.json", "Footage/B.json", some "Footage/B.json", "restB"⟩]) ∧
    (updateRecord
        [⟨"A.json", "raw/a.mp4", none, "restA"⟩,
         ⟨"B.json", "raw/b.mp4", none, "restB"⟩]
        ⟨"A.json", "raw/a.mp4", none, "restA"⟩ "Footage/A.json"
      = [⟨"A.json", "Footage/A.json", some "Footage/A.json", "restA"⟩,
         ⟨"B.json", "raw/b.mp4", none, "restB"⟩]) := by
  refine ⟨by decide, by decide, by decide⟩

/-! ### Group colour assignment (`assign_colors_to_groups`,
`create_metadata.py` lines 352-444)

The input set of group keys is given as a list in the (implementation-
defined) iteration order of the Python set; all theorems hold for every
order.  A Python dict of lists keyed by source is rendered as the list of
distinct sources in first-seen order plus, per source, the sublist of groups
with that source. -/

/-- The full ordered palette (`VALID_COLORS`). -/
def VALID_COLORS : List String :=
  ["Blue", "Green", "Purple", "Cyan", "Yellow", "Orange", "Pink", "Fuchsia",
   "Violet", "Teal", "Lavender", "Rose", "Magenta", "Brown", "Olive", "Tan",
   "Sand", "Red"]

/-- The known-family table (`SOURCE_COLOR_FAMILIES`). -/
def SOURCE_COLOR_FAMILIES : List (String × List String) :=
  [("DRONE", ["Green", "Olive"]),
   ("CELL-BLAIN", ["Orange", "Tan"]),
   ("CANON", ["Blue", "Cyan"])]

/-- The shared dynamic pool (`DYNAMIC_COLORS`). -/
def DYNAMIC_COLORS : List String :=
  ["Purple", "Violet", "Pink", "Rose", "Fuchsia", "Yellow", "Sand", "Brown",
   "Lavender", "Teal", "Magenta", "Red"]

/-- The source of a group key: `group.rsplit('_', 1)[0]` when an underscore
is present in the key, else the key itself. -/
def sourceOf (g : String) : String :=
  match g.data.reverse.dropWhile (fun c => !(c == '_')) with
  | [] => g
  | _ :: rest => ⟨rest.reverse⟩

/-- Lexicographic comparison by code point (Python string `<=`). -/
def lexLe : List Char → List Char → Bool
  | [], _ => true
  | _ :: _, [] => false
  | x :: xs, y :: ys =>
    if x.toNat < y.toNat then true
    else if y.toNat < x.toNat then false
    else lexLe xs ys

/-- Insertion into a sorted list under the Python string order. -/
def insertSorted (x : String) : List String → List String
  | [] => [x]
  | y :: ys => if lexLe x.data y.data then x :: y :: ys else y :: insertSorted x ys

/-- Model of Python `sorted` on strings (insertion sort; on the duplicate-
free lists sorted here, any correct sort yields the Python result). -/
def sortStr : List String → List String
  | [] => []
  | x :: xs => insertSorted x (sortStr xs)

/-- The groups of one source, in input order (the dict-of-lists bucket). -/
def bucketOf (groups : List String) (s : String) : List String :=
  groups.filter (fun g => sourceOf g == s)

/-- The mutable state of `assign_colors_to_groups`: the assignment in
insertion order, the `used_colors` set, and the dynamic pool. -/
structure AState where
  assign : List (String × String)
  used : List String
  pool : List String

/-- The groups assigned so far. -/
def keysOf (st : AState) : List String :=
  st.assign.map Prod.fst

/-- The colours assigned so far. -/
def colorsOf (st : AState) : List String :=
  st.assign.map Prod.snd

/-- Record an assignment and mark the colour used. -/
def pushColor (st : AState) (g c : String) : AState :=
  { st with assign := st.assign ++ [(g, c)], used := c :: st.used }

/-- One known-family assignment: claim the colour only if it is still
unused, also withdrawing it from the dynamic pool. -/
def knownAssign (st : AState) (c g : String) : AState :=
  if st.used.contains c then st
  else
    { assign := st.assign ++ [(g, c)], used := c :: st.used,
      pool := st.pool.erase c }

/-- The family loop: pair the sorted groups with the family colours; groups
beyond the family colours are left for the final pass. -/
def processKnown : AState → List String → List String → AState
  | st, _, [] => st
  | st, [], _ :: _ => st
  | st, c :: cs, g :: gs => processKnown (knownAssign st c g) cs gs

/-- The alternative-colour loop: first unused colour of the full palette,
or nothing when the palette is exhausted. -/
def altAssign (st : AState) (g : String) : AState :=
  match VALID_COLORS.find? (fun c => !(st.used.contains c)) with
  | some c => pushColor st g c
  | none => st

/-- One dynamic assignment: the drawn pool colour if still unused, else an
alternative palette colour. -/
def dynAssign (st : AState) (c g : String) : AState :=
  if st.used.contains c then altAssign st g else pushColor st g c

/-- The unknown-source group loop: pool colours in lockstep with the sorted
groups, the alternative loop beyond them. -/
def processUnknownGroups : AState → List String → List String → AState
  | st, _, [] => st
  | st, [], g :: gs => processUnknownGroups (altAssign st g) [] gs
  | st, c :: cs, g :: gs => processUnknownGroups (dynAssign st c g) cs gs

/-- One unknown source: draw up to two colours from the pool (wrapping to
the fixed Purple/Violet pair when the pool is empty), then assign its sorted
groups. -/
def processUnknown (st : AState) (gs : List String) : AState :=
  let pick :=
    if 2 ≤ st.pool.length then (st.pool.take 2, st.pool.drop 2)
    else if st.pool.length = 1 then (st.pool.take 1, ([] : List String))
    else (["Purple", "Violet"], st.pool)
  processUnknownGroups { st with pool := pick.2 } pick.1 gs

/-- The colour list of a known family. -/
def familyColorsOf (s : String) : Option (List String) :=
  SOURCE_COLOR_FAMILIES.lookup s

/-- Pass over the sources handling the known families. -/
def phaseA (groups : List String) (st : AState) (sources : List String) : AState :=
  sources.foldl (fun st s =>
    match familyColorsOf s with
    | some colors => processKnown st colors (sortStr (bucketOf groups s))
    | none => st) st

/-- Pass over the remaining (unknown) sources. -/
def phaseB (groups : List String) (st : AState) (sources : List String) : AState :=
  sources.foldl (fun st s =>
    if (familyColorsOf s).isSome then st
    else processUnknown st (sortStr (bucketOf groups s))) st

/-- The final catch-all: an unused palette colour, or the fixed last-resort
`Sand` (without an unused check) when the whole palette is used. -/
def altAssignSand (st : AState) (g : String) : AState :=
  match VALID_COLORS.find? (fun c => !(st.used.contains c)) with
  | some c => pushColor st g c
  | none => { st with assign := st.assign ++ [(g, "Sand")] }

/-- The final pass guaranteeing every group a colour. -/
def phaseC (st : AState) (groups : List String) : AState :=
  groups.foldl (fun st g =>
    if (keysOf st).contains g then st else altAssignSand st g) st

/-- Model of `assign_colors_to_groups`: the three passes over the partition
of the groups by source. -/
def assign_colors_to_groups (groups : List String) : List (String × String) :=
  (phaseC
    (phaseB groups
      (phaseA groups ⟨[], [], DYNAMIC_COLORS⟩ (firstDedup (groups.map sourceOf)))
      (firstDedup (groups.map sourceOf)))
    groups).assign

/-- The correctness invariant of the assignment state: assigned groups are
pairwise distinct input groups, assigned colours are pairwise distinct, and
`used` is exactly the set of assigned colours. -/
structure AInv (groups : List String) (st : AState) : Prop where
  keysND : (keysOf st).Nodup
  colorsND : (colorsOf st).Nodup
  usedEq : ∀ c, c ∈ st.used ↔ c ∈ colorsOf st
  keysSub : ∀ g, g ∈ keysOf st → g ∈ groups

theorem keysOf_pushColor (st : AState) (g c : String) :
    keysOf (pushColor st g c) = keysOf st ++ [g] := by
  simp [keysOf, pushColor]

theorem colorsOf_pushColor (st : AState) (g c : String) :
    colorsOf (pushColor st g c) = colorsOf st ++ [c] := by
  simp [colorsOf, pushColor]

theorem AInv_pushColor {groups : List String} {st : AState} {g c : String}
    (h : AInv groups st) (hg : g ∈ groups) (hfresh : g ∉ keysOf st)
    (hc : c ∉ st.used) : AInv groups (pushColor st g c) := by
  have hcc : c ∉ colorsOf st := fun hmem => hc ((h.usedEq c).mpr hmem)
  constructor
  · rw [keysOf_pushColor]
    simp [List.nodup_append, h.keysND, hfresh]
  · rw [colorsOf_pushColor]
    simp [List.nodup_append, h.colorsND, hcc]
  · intro c'
    rw [colorsOf_pushColor]
    show c' ∈ c :: st.used ↔ _
    rw [List.mem_cons, List.mem_append, List.mem_singleton, h.usedEq c']
    tauto
  · intro g'
    rw [keysOf_pushColor, List.mem_append, List.mem_singleton]
    rintro (hmem | rfl)
    · exact h.keysSub g' hmem
    · exact hg

theorem AInv_pool {groups : List String} {st : AState} (h : AInv groups st)
    (p : List String) : AInv groups { st with pool := p } :=
  ⟨h.keysND, h.colorsND, h.usedEq, h.keysSub⟩

theorem contains_iff (l : List String) (a : String) :
    l.contains a = true ↔ a ∈ l :=
  List.elem_iff

theorem knownAssign_inv {groups : List String} {st : AState} {g : String}
    (c : String) (h : AInv groups st) (hg : g ∈ groups)
    (hfresh : g ∉ keysOf st) :
    AInv groups (knownAssign st c g) ∧
    (∀ g', g' ∈ keysOf (knownAssign st c g) → g' ∈ keysOf st ∨ g' = g) := by
  unfold knownAssign
  by_cases hc : st.used.contains c = true
  · rw [if_pos hc]
    exact ⟨h, fun g' hm => Or.inl hm⟩
  · rw [if_neg hc]
    have hc' : c ∉ st.used := by
      intro hmem
      exact hc ((contains_iff st.used c).mpr hmem)
    have hp := AInv_pushColor h hg hfresh hc'
    refine ⟨⟨hp.keysND, hp.colorsND, hp.usedEq, hp.keysSub⟩, ?_⟩
    intro g' hm
    have : g' ∈ keysOf (pushColor st g c) := hm
    rw [keysOf_pushColor, List.mem_append, List.mem_singleton] at this
    exact this

theorem altAssign_inv {groups : List String} {st : AState} {g : String}
    (h : AInv groups st) (hg : g ∈ groups) (hfresh : g ∉ keysOf st) :
    AInv groups (altAssign st g) ∧
    (∀ g', g' ∈ keysOf (altAssign st g) → g' ∈ keysOf st ∨ g' = g) := by
  unfold altAssign
  rcases hf : VALID_COLORS.find? (fun c => !(st.used.contains c)) with _ | c
  · exact ⟨h, fun g' hm => Or.inl hm⟩
  · have hc : c ∉ st.used := by
      have h1 := List.find?_some hf
      intro hmem
      rw [(contains_iff st.used c).mpr hmem] at h1
      simp at h1
    refine ⟨AInv_pushColor h hg hfresh hc, ?_⟩
    intro g' hm
    rw [keysOf_pushColor, List.mem_append, List.mem_singleton] at hm
    exact hm

theorem dynAssign_inv {groups : List String} {st : AState} {g : String}
    (c : String) (h : AInv groups st) (hg : g ∈ groups)
    (hfresh : g ∉ keysOf st) :
    AInv groups (dynAssign st c g) ∧
    (∀ g', g' ∈ keysOf (dynAssign st c g) → g' ∈ keysOf st ∨ g' = g) := by
  unfold dynAssign
  by_cases hc : st.used.contains c = true
  · rw [if_pos hc]
    exact altAssign_inv h hg hfresh
  · rw [if_neg hc]
    have hc' : c ∉ st.used := fun hmem => hc ((contains_iff st.used c).mpr hmem)
    refine ⟨AInv_pushColor h hg hfresh hc', ?_⟩
    intro g' hm
    rw [keysOf_pushColor, List.mem_append, List.mem_singleton] at hm
    exact hm

theorem insertSorted_perm (x : String) :
    ∀ l : List String, (insertSorted x l).Perm (x :: l) := by
  intro l
  induction l with
  | nil => exact List.Perm.refl _
  | cons y ys ih =>
    unfold insertSorted
    by_cases hle : lexLe x.data y.data = true
    · rw [if_pos hle]
    · rw [if_neg hle]
      exact (List.Perm.cons y ih).trans (List.Perm.swap x y ys)

theorem sortStr_perm : ∀ l : List String, (sortStr l).Perm l := by
  intro l
  induction l with
  | nil => exact List.Perm.refl _
  | cons x xs ih =>
    unfold sortStr
    exact (insertSorted_perm x (sortStr xs)).trans (List.Perm.cons x ih)

theorem processKnown_inv {groups : List String} :
    ∀ (gs cs : List String) (st : AState), AInv groups st → gs.Nodup →
      (∀ g ∈ gs, g ∈ groups ∧ g ∉ keysOf st) →
      AInv groups (processKnown st cs gs) ∧
      (∀ g, g ∈ keysOf (processKnown st cs gs) → g ∈ keysOf st ∨ g ∈ gs) := by
  intro gs
  induction gs with
  | nil =>
    intro cs st h _ _
    cases cs with
    | nil => exact ⟨h, fun g hm => Or.inl hm⟩
    | cons c cs => exact ⟨h, fun g hm => Or.inl hm⟩
  | cons g gs ih =>
    intro cs st h hnd hfresh
    cases cs with
    | nil => exact ⟨h, fun g' hm => Or.inl hm⟩
    | cons c cs =>
      have hg := hfresh g (List.mem_cons_self _ _)
      obtain ⟨hka, hkk⟩ := knownAssign_inv c h hg.1 hg.2
      have hnd' := (List.nodup_cons.mp hnd).2
      have hgns := (List.nodup_cons.mp hnd).1
      have hfresh' : ∀ g' ∈ gs, g' ∈ groups ∧ g' ∉ keysOf (knownAssign st c g) := by
        intro g' hg'
        obtain ⟨h1, h2⟩ := hfresh g' (List.mem_cons_of_mem _ hg')
        refine ⟨h1, fun hm => ?_⟩
        rcases hkk g' hm with hm2 | rfl
        · exact h2 hm2
        · exact hgns hg'
      obtain ⟨hfin, hkeys⟩ := ih cs (knownAssign st c g) hka hnd' hfresh'
      refine ⟨hfin, ?_⟩
      intro g' hm
      rcases hkeys g' hm with hm2 | hm2
      · rcases hkk g' hm2 with hm3 | rfl
        · exact Or.inl hm3
        · exact Or.inr (List.mem_cons_self _ _)
      · exact Or.inr (List.mem_cons_of_mem _ hm2)

theorem processUnknownGroups_inv {groups : List String} :
    ∀ (gs cs : List String) (st : AState), AInv groups st → gs.Nodup →
      (∀ g ∈ gs, g ∈ groups ∧ g ∉ keysOf st) →
      AInv groups (processUnknownGroups st cs gs) ∧
      (∀ g, g ∈ keysOf (processUnknownGroups st cs gs) →
        g ∈ keysOf st ∨ g ∈ gs) := by
  intro gs
  induction gs with
  | nil =>
    intro cs st h _ _
    cases cs with
    | nil => exact ⟨h, fun g hm => Or.inl hm⟩
    | cons c cs => exact ⟨h, fun g hm => Or.inl hm⟩
  | cons g gs ih =>
    intro cs st h hnd hfresh
    have hg := hfresh g (List.mem_cons_self _ _)
    have hnd' := (List.nodup_cons.mp hnd).2
    have hgns := (List.nodup_cons.mp hnd).1
    cases cs with
    | nil =>
      obtain ⟨hka, hkk⟩ := altAssign_inv h hg.1 hg.2
      have hfresh' : ∀ g' ∈ gs, g' ∈ groups ∧ g' ∉ keysOf (altAssign st g) := by
        intro g' hg'
        obtain ⟨h1, h2⟩ := hfresh g' (List.mem_cons_of_mem _ hg')
        refine ⟨h1, fun hm => ?_⟩
        rcases hkk g' hm with hm2 | rfl
        · exact h2 hm2
        · exact hgns hg'
      obtain ⟨hfin, hkeys⟩ := ih [] (altAssign st g) hka hnd' hfresh'
      refine ⟨hfin, ?_⟩
      intro g' hm
      rcases hkeys g' hm with hm2 | hm2
      · rcases hkk g' hm2 with hm3 | rfl
        · exact Or.inl hm3
        · exact Or.inr (List.mem_cons_self _ _)
      · exact Or.inr (List.mem_cons_of_mem _ hm2)
    | cons c cs =>
      obtain ⟨hka, hkk⟩ := dynAssign_inv c h hg.1 hg.2
      have hfresh' : ∀ g' ∈ gs, g' ∈ groups ∧ g' ∉ keysOf (dynAssign st c g) := by
        intro g' hg'
        obtain ⟨h1, h2⟩ := hfresh g' (List.mem_cons_of_mem _ hg')
        refine ⟨h1, fun hm => ?_⟩
        rcases hkk g' hm with hm2 | rfl
        · exact h2 hm2
        · exact hgns hg'
      obtain ⟨hfin, hkeys⟩ := ih cs (dynAssign st c g) hka hnd' hfresh'
      refine ⟨hfin, ?_⟩
      intro g' hm
      rcases hkeys g' hm with hm2 | hm2
      · rcases hkk g' hm2 with hm3 | rfl
        · exact Or.inl hm3
        · exact Or.inr (List.mem_cons_self _ _)
      · exact Or.inr (List.mem_cons_of_mem _ hm2)

theorem processUnknown_inv {groups : List String} {st : AState}
    (gs : List String) (h : AInv groups st) (hnd : gs.Nodup)
    (hfresh : ∀ g ∈ gs, g ∈ groups ∧ g ∉ keysOf st) :
    AInv groups (processUnknown st gs) ∧
    (∀ g, g ∈ keysOf (processUnknown st gs) → g ∈ keysOf st ∨ g ∈ gs) := by
  unfold processUnknown
  exact processUnknownGroups_inv gs _ _ (AInv_pool h _) hnd hfresh

theorem mem_bucketOf {groups : List String} {s g : String} :
    g ∈ bucketOf groups s ↔ g ∈ groups ∧ sourceOf g = s := by
  unfold bucketOf
  rw [List.mem_filter]
  simp

theorem sortStr_bucket_nodup {groups : List String} (hgnd : groups.Nodup)
    (s : String) : (sortStr (bucketOf groups s)).Nodup :=
  ((sortStr_perm _).nodup_iff).mpr (List.Nodup.filter _ hgnd)

theorem mem_sortStr_bucket {groups : List String} {s g : String} :
    g ∈ sortStr (bucketOf groups s) ↔ g ∈ groups ∧ sourceOf g = s := by
  rw [(sortStr_perm _).mem_iff, mem_bucketOf]

theorem phaseA_inv {groups : List String} (hgnd : groups.Nodup) :
    ∀ (sources : List String) (st : AState) (seen : List String),
      AInv groups st → sources.Nodup →
      (∀ s ∈ sources, s ∉ seen) →
      (∀ g, g ∈ keysOf st → sourceOf g ∈ seen) →
      AInv groups (phaseA groups st sources) ∧
      (∀ g, g ∈ keysOf (phaseA groups st sources) →
        sourceOf g ∈ seen ∨ sourceOf g ∈ sources) ∧
      (∀ g, g ∈ keysOf (phaseA groups st sources) →
        g ∈ keysOf st ∨ (familyColorsOf (sourceOf g)).isSome = true) := by
  intro sources
  induction sources with
  | nil =>
    intro st seen h _ _ hkeys
    exact ⟨h, fun g hm => Or.inl (hkeys g hm), fun g hm => Or.inl hm⟩
  | cons s ss ih =>
    intro st seen h hnd hdisj hkeys
    have hsnotseen : s ∉ seen := hdisj s (List.mem_cons_self _ _)
    have hndss := (List.nodup_cons.mp hnd).2
    have hsns := (List.nodup_cons.mp hnd).1
    have hdisj' : ∀ s' ∈ ss, s' ∉ seen ++ [s] := by
      intro s' hs' hmem
      rcases List.mem_append.mp hmem with hmem | hmem
      · exact hdisj s' (List.mem_cons_of_mem _ hs') hmem
      · rw [List.mem_singleton] at hmem
        subst hmem
        exact hsns hs'
    rcases hfam : familyColorsOf s with _ | colors
    · have hred : phaseA groups st (s :: ss) = phaseA groups st ss := by
        unfold phaseA
        rw [List.foldl_cons]
        congr 1
        simp [hfam]
      rw [hred]
      have hkeys' : ∀ g, g ∈ keysOf st → sourceOf g ∈ seen ++ [s] := by
        intro g hg
        exact List.mem_append_left _ (hkeys g hg)
      obtain ⟨h1, h2, h3⟩ := ih st (seen ++ [s]) h hndss hdisj' hkeys'
      refine ⟨h1, ?_, h3⟩
      intro g hm
      rcases h2 g hm with hm2 | hm2
      · rcases List.mem_append.mp hm2 with hm3 | hm3
        · exact Or.inl hm3
        · rw [List.mem_singleton] at hm3
          exact Or.inr (by rw [hm3]; exact List.mem_cons_self _ _)
      · exact Or.inr (List.mem_cons_of_mem _ hm2)
    · have hred : phaseA groups st (s :: ss)
          = phaseA groups (processKnown st colors (sortStr (bucketOf groups s))) ss := by
        unfold phaseA
        rw [List.foldl_cons]
        congr 1
        simp [hfam]
      rw [hred]
      have hfresh : ∀ g ∈ sortStr (bucketOf groups s),
          g ∈ groups ∧ g ∉ keysOf st := by
        intro g hg
        obtain ⟨h1, h2⟩ := mem_sortStr_bucket.mp hg
        refine ⟨h1, fun hm => ?_⟩
        have := hkeys g hm
        rw [h2] at this
        exact hsnotseen this
      obtain ⟨hst', hkk⟩ := processKnown_inv (sortStr (bucketOf groups s)) colors st
        h (sortStr_bucket_nodup hgnd s) hfresh
      have hkeys' : ∀ g, g ∈ keysOf (processKnown st colors (sortStr (bucketOf groups s))) →
          sourceOf g ∈ seen ++ [s] := by
        intro g hg
        rcases hkk g hg with hm | hm
        · exact List.mem_append_left _ (hkeys g hm)
        · rw [(mem_sortStr_bucket.mp hm).2]
          exact List.mem_append_right _ (List.mem_singleton.mpr rfl)
      obtain ⟨h1, h2, h3⟩ := ih _ (seen ++ [s]) hst' hndss hdisj' hkeys'
      refine ⟨h1, ?_, ?_⟩
      · intro g hm
        rcases h2 g hm with hm2 | hm2
        · rcases List.mem_append.mp hm2 with hm3 | hm3
          · exact Or.inl hm3
          · rw [List.mem_singleton] at hm3
            exact Or.inr (by rw [hm3]; exact List.mem_cons_self _ _)
        · exact Or.inr (List.mem_cons_of_mem _ hm2)
      · intro g hm
        rcases h3 g hm with hm2 | hm2
        · rcases hkk g hm2 with hm3 | hm3
          · exact Or.inl hm3
          · right
            rw [(mem_sortStr_bucket.mp hm3).2, hfam]
            rfl
        · exact Or.inr hm2

theorem phaseB_inv {groups : List String} (hgnd : groups.Nodup) :
    ∀ (sources : List String) (st : AState) (seen : List String),
      AInv groups st → sources.Nodup →
      (∀ s ∈ sources, s ∉ seen) →
      (∀ g, g ∈ keysOf st →
        (familyColorsOf (sourceOf g)).isSome = true ∨ sourceOf g ∈ seen) →
      AInv groups (phaseB groups st sources) := by
  intro sources
  induction sources with
  | nil =>
    intro st seen h _ _ _
    exact h
  | cons s ss ih =>
    intro st seen h hnd hdisj hkeys
    have hsnotseen : s ∉ seen := hdisj s (List.mem_cons_self _ _)
    have hndss := (List.nodup_cons.mp hnd).2
    have hsns := (List.nodup_cons.mp hnd).1
    have hdisj' : ∀ s' ∈ ss, s' ∉ seen ++ [s] := by
      intro s' hs' hmem
      rcases List.mem_append.mp hmem with hmem | hmem
      · exact hdisj s' (List.mem_cons_of_mem _ hs') hmem
      · rw [List.mem_singleton] at hmem
        subst hmem
        exact hsns hs'
    by_cases hfam : (familyColorsOf s).isSome = true
    · have hred : phaseB groups st (s :: ss) = phaseB groups st ss := by
        unfold phaseB
        rw [List.foldl_cons]
        congr 1
        simp [hfam]
      rw [hred]
      apply ih st (seen ++ [s]) h hndss hdisj'
      intro g hg
      rcases hkeys g hg with hm | hm
      · exact Or.inl hm
      · exact Or.inr (List.mem_append_left _ hm)
    · have hred : phaseB groups st (s :: ss)
          = phaseB groups (processUnknown st (sortStr (bucketOf groups s))) ss := by
        unfold phaseB
        rw [List.foldl_cons]
        congr 1
        simp [hfam]
      rw [hred]
      have hfresh : ∀ g ∈ sortStr (bucketOf groups s),
          g ∈ groups ∧ g ∉ keysOf st := by
        intro g hg
        obtain ⟨h1, h2⟩ := mem_sortStr_bucket.mp hg
        refine ⟨h1, fun hm => ?_⟩
        rcases hkeys g hm with hm2 | hm2
        · rw [h2] at hm2
          exact hfam hm2
        · rw [h2] at hm2
          exact hsnotseen hm2
      obtain ⟨hst', hkk⟩ := processUnknown_inv (sortStr (bucketOf groups s))
        h (sortStr_bucket_nodup hgnd s) hfresh
      apply ih _ (seen ++ [s]) hst' hndss hdisj'
      intro g hg
      rcases hkk g hg with hm | hm
      · rcases hkeys g hm with hm2 | hm2
        · exact Or.inl hm2
        · exact Or.inr (List.mem_append_left _ hm2)
      · right
        rw [(mem_sortStr_bucket.mp hm).2]
        exact List.mem_append_right _ (List.mem_singleton.mpr rfl)

theorem keysOf_altAssignSand (st : AState) (g : String) :
    keysOf (altAssignSand st g) = keysOf st ++ [g] := by
  unfold altAssignSand
  rcases hf : VALID_COLORS.find? (fun c => !(st.used.contains c)) with _ | c <;>
    simp [keysOf, pushColor]

theorem phaseC_keys :
    ∀ (gs : List String) (st : AState), (keysOf st).Nodup →
      (keysOf (phaseC st gs)).Nodup ∧
      (∀ g, g ∈ keysOf st → g ∈ keysOf (phaseC st gs)) ∧
      (∀ g ∈ gs, g ∈ keysOf (phaseC st gs)) := by
  intro gs
  induction gs with
  | nil =>
    intro st h
    exact ⟨h, fun g hm => hm, by simp⟩
  | cons g gs ih =>
    intro st h
    have hred : phaseC st (g :: gs)
        = phaseC (if (keysOf st).contains g then st else altAssignSand st g) gs := by
      unfold phaseC
      rw [List.foldl_cons]
    by_cases hc : (keysOf st).contains g = true
    · rw [hred, if_pos hc]
      obtain ⟨h1, h2, h3⟩ := ih st h
      refine ⟨h1, h2, ?_⟩
      intro g' hg'
      rcases List.mem_cons.mp hg' with rfl | hm
      · exact h2 g' ((contains_iff _ _).mp hc)
      · exact h3 g' hm
    · rw [hred, if_neg hc]
      have hfresh : g ∉ keysOf st := fun hm => hc ((contains_iff _ _).mpr hm)
      have hnd' : (keysOf (altAssignSand st g)).Nodup := by
        rw [keysOf_altAssignSand]
        simp [List.nodup_append, h, hfresh]
      obtain ⟨h1, h2, h3⟩ := ih _ hnd'
      refine ⟨h1, ?_, ?_⟩
      · intro g' hm
        apply h2
        rw [keysOf_altAssignSand]
        exact List.mem_append_left _ hm
      · intro g' hg'
        rcases List.mem_cons.mp hg' with rfl | hm
        · apply h2
          rw [keysOf_altAssignSand]
          exact List.mem_append_right _ (List.mem_singleton.mpr rfl)
        · exact h3 g' hm

theorem phaseC_inv {groups : List String} (_hgnd : groups.Nodup)
    (hlen : groups.length ≤ VALID_COLORS.length) :
    ∀ (gs : List String) (st : AState), AInv groups st →
      (∀ g ∈ gs, g ∈ groups) →
      AInv groups (phaseC st gs) := by
  intro gs
  induction gs with
  | nil =>
    intro st h _
    exact h
  | cons g gs ih =>
    intro st h hsub
    have hgg : g ∈ groups := hsub g (List.mem_cons_self _ _)
    have hsub' : ∀ g' ∈ gs, g' ∈ groups :=
      fun g' hg' => hsub g' (List.mem_cons_of_mem _ hg')
    have hred : phaseC st (g :: gs)
        = phaseC (if (keysOf st).contains g then st else altAssignSand st g) gs := by
      unfold phaseC
      rw [List.foldl_cons]
    by_cases hc : (keysOf st).contains g = true
    · rw [hred, if_pos hc]
      exact ih st h hsub'
    · rw [hred, if_neg hc]
      have hfresh : g ∉ keysOf st := fun hm => hc ((contains_iff _ _).mpr hm)
      rcases hf : VALID_COLORS.find? (fun c => !(st.used.contains c)) with _ | c
      · exfalso
        have hall : ∀ c ∈ VALID_COLORS, c ∈ colorsOf st := by
          intro c hcv
          have hnone := List.find?_eq_none.mp hf c hcv
          have hcu : st.used.contains c = true := by
            cases hb : st.used.contains c
            · exact absurd (by rw [hb]; rfl) hnone
            · rfl
          exact (h.usedEq c).mp ((contains_iff _ _).mp hcu)
        have hvnd : VALID_COLORS.Nodup := by decide
        have h18 : VALID_COLORS.length ≤ (colorsOf st).length := by
          calc VALID_COLORS.length = VALID_COLORS.toFinset.card :=
                (List.toFinset_card_of_nodup hvnd).symm
            _ ≤ (colorsOf st).toFinset.card := by
                apply Finset.card_le_card
                intro c hcm
                rw [List.mem_toFinset] at hcm
                rw [List.mem_toFinset]
                exact hall c hcm
            _ ≤ (colorsOf st).length := List.toFinset_card_le _
        have hkeyslen : (keysOf st).length = (colorsOf st).length := by
          simp [keysOf, colorsOf]
        have hksub : (keysOf st).toFinset ⊆ groups.toFinset := by
          intro x hx
          rw [List.mem_toFinset] at hx
          rw [List.mem_toFinset]
          exact h.keysSub x hx
        have hgcard : groups.toFinset.card ≤ (keysOf st).toFinset.card := by
          calc groups.toFinset.card ≤ groups.length := List.toFinset_card_le _
            _ ≤ VALID_COLORS.length := hlen
            _ ≤ (colorsOf st).length := h18
            _ = (keysOf st).length := hkeyslen.symm
            _ = (keysOf st).toFinset.card := (List.toFinset_card_of_nodup h.keysND).symm
        have heq : (keysOf st).toFinset = groups.toFinset :=
          Finset.eq_of_subset_of_card_le hksub hgcard
        have : g ∈ (keysOf st).toFinset := by
          rw [heq, List.mem_toFinset]
          exact hgg
        rw [List.mem_toFinset] at this
        exact hfresh this
      · have hcu : c ∉ st.used := by
          have h1 := List.find?_some hf
          intro hmem
          rw [(contains_iff st.used c).mpr hmem] at h1
          simp at h1
        have hstep : altAssignSand st g = pushColor st g c := by
          unfold altAssignSand
          rw [hf]
        rw [hstep]
        exact ih _ (AInv_pushColor h hgg hfresh hcu) hsub'

theorem entry_fst_unique : ∀ (l : List (String × String)),
    (l.map Prod.fst).Nodup →
    ∀ g c c', (g, c) ∈ l → (g, c') ∈ l → c = c' := by
  intro l
  induction l with
  | nil =>
    intro _ g c c' h
    simp at h
  | cons p t ih =>
    intro hnd g c c' h1 h2
    rw [List.map_cons, List.nodup_cons] at hnd
    rcases List.mem_cons.mp h1 with he1 | hm1 <;>
      rcases List.mem_cons.mp h2 with he2 | hm2
    · rw [← he2] at he1
      exact (Prod.mk.injEq _ _ _ _).mp he1 |>.2
    · exfalso
      apply hnd.1
      rw [← he1]
      exact List.mem_map.mpr ⟨(g, c'), hm2, rfl⟩
    · exfalso
      apply hnd.1
      rw [← he2]
      exact List.mem_map.mpr ⟨(g, c), hm1, rfl⟩
    · exact ih hnd.2 g c c' hm1 hm2

theorem entry_snd_unique : ∀ (l : List (String × String)),
    (l.map Prod.snd).Nodup →
    ∀ g g' c, (g, c) ∈ l → (g', c) ∈ l → g = g' := by
  intro l
  induction l with
  | nil =>
    intro _ g g' c h
    simp at h
  | cons p t ih =>
    intro hnd g g' c h1 h2
    rw [List.map_cons, List.nodup_cons] at hnd
    rcases List.mem_cons.mp h1 with he1 | hm1 <;>
      rcases List.mem_cons.mp h2 with he2 | hm2
    · rw [← he2] at he1
      exact (Prod.mk.injEq _ _ _ _).mp he1 |>.1
    · exfalso
      apply hnd.1
      rw [← he1]
      exact List.mem_map.mpr ⟨(g', c), hm2, rfl⟩
    · exfalso
      apply hnd.1
      rw [← he2]
      exact List.mem_map.mpr ⟨(g, c), hm1, rfl⟩
    · exact ih hnd.2 g g' c hm1 hm2

/-- C2: for any duplicate-free list of observed group keys (the iteration
order of the Python set), every group receives exactly one colour, whatever
the group count; and when there are at most as many groups as the 18-colour
palette, no two distinct groups share a colour.  (Past the palette size the
fixed last-resort colour may repeat — the logged degraded mode.) -/
theorem C2_color_assignment (groups : List String) (hnd : groups.Nodup) :
    (∀ g ∈ groups, ∃ c, (g, c) ∈ assign_colors_to_groups groups ∧
      ∀ c', (g, c') ∈ assign_colors_to_groups groups → c' = c) ∧
    (groups.length ≤ VALID_COLORS.length →
      ∀ g1 g2 c, (g1, c) ∈ assign_colors_to_groups groups →
        (g2, c) ∈ assign_colors_to_groups groups → g1 = g2) := by
  have hbase : AInv groups ⟨[], [], DYNAMIC_COLORS⟩ := by
    refine ⟨?_, ?_, ?_, ?_⟩ <;> simp [keysOf, colorsOf]
  obtain ⟨hA, hA2, hA3⟩ := phaseA_inv hnd (firstDedup (groups.map sourceOf))
    ⟨[], [], DYNAMIC_COLORS⟩ [] hbase (nodup_firstDedup _) (by simp)
    (by simp [keysOf])
  have hB : AInv groups
      (phaseB groups
        (phaseA groups ⟨[], [], DYNAMIC_COLORS⟩ (firstDedup (groups.map sourceOf)))
        (firstDedup (groups.map sourceOf))) := by
    apply phaseB_inv hnd (firstDedup (groups.map sourceOf)) _ [] hA
      (nodup_firstDedup _) (by simp)
    intro g hg
    rcases hA3 g hg with hm | hm
    · simp [keysOf] at hm
    · exact Or.inl hm
  obtain ⟨hCnd, hCmono, hCall⟩ := phaseC_keys groups _ hB.keysND
  constructor
  · intro g hg
    have hmem : g ∈ keysOf (phaseC
        (phaseB groups
          (phaseA groups ⟨[], [], DYNAMIC_COLORS⟩ (firstDedup (groups.map sourceOf)))
          (firstDedup (groups.map sourceOf)))
        groups) := hCall g hg
    unfold keysOf at hmem
    rw [List.mem_map] at hmem
    obtain ⟨p, hp, hp1⟩ := hmem
    refine ⟨p.2, ?_, ?_⟩
    · show (g, p.2) ∈ _
      rw [← hp1]
      exact hp
    · intro c' hc'
      refine entry_fst_unique _ hCnd g c' p.2 hc' ?_
      show (g, p.2) ∈ _
      rw [← hp1]
      exact hp
  · intro hlen g1 g2 c h1 h2
    have hCinv := phaseC_inv hnd hlen groups _ hB (fun g hg => hg)
    exact entry_snd_unique _ hCinv.colorsND g1 g2 c h1 h2

/-- Witness for C2: the spec's scenario-D style set: the known family CANON
takes its two family colours in sorted order, the third group a distinct
colour; the theorem instantiated at this set yields existence for
`CANON_709`. -/
theorem C2_color_assignment_witness :
    assign_colors_to_groups ["CANON_709", "CANON_LOG", "DRONE_709"]
      = [("CANON_709", "Blue"), ("CANON_LOG", "Cyan"), ("DRONE_709", "Green")] ∧
    ∃ c, ("CANON_709", c) ∈ assign_colors_to_groups ["CANON_709", "CANON_LOG", "DRONE_709"] ∧
      ∀ c', ("CANON_709", c') ∈ assign_colors_to_groups ["CANON_709", "CANON_LOG", "DRONE_709"] → c' = c :=
  ⟨by decide,
   (C2_color_assignment ["CANON_709", "CANON_LOG", "DRONE_709"] (by decide)).1
     "CANON_709" (by decide)⟩
